import Mathlib

/-!
Shallow embedding of the content-negotiation core of the repository:
the files rest_framework/utils/mediatypes.py and rest_framework/negotiation.py.

Strings are modelled as Lean strings (lists of characters).  The Python code
works on latin-1 encoded bytes; all operations involved (strip, lower, split,
find) act bytewise on ASCII, which coincides with the character-wise model
used here.  Python floats (the quality value produced by float(q)) are
modelled as exact rationals: every decimal literal is represented exactly;
IEEE rounding, inf and nan are not modelled.
-/

/-- Python str.strip() whitespace predicate: space, tab, newline, carriage
return, vertical tab, form feed. -/
def pyIsSpace (c : Char) : Bool :=
  c = ' ' || c = '\t' || c = '\n' || c = '\r' || c = '\x0b' || c = '\x0c'

/-- Python str.strip() on a character list: drop whitespace from both ends. -/
def pyStripList (cs : List Char) : List Char :=
  ((cs.dropWhile pyIsSpace).reverse.dropWhile pyIsSpace).reverse

/-- Python str.strip() on a string. -/
def pyStrip (s : String) : String :=
  String.mk (pyStripList s.data)

/-- Python bytes.lower(): lower-case ASCII letters only. -/
def asciiLower (c : Char) : Char :=
  if 'A' ≤ c && c ≤ 'Z' then Char.ofNat (c.toNat + 32) else c

/-- Lower-casing of a whole character list, as bytes.lower() does. -/
def lowerList (cs : List Char) : List Char :=
  cs.map asciiLower

/-- Decimal digit character for a single digit value. -/
def digitChar : Nat → Char
  | 0 => '0' | 1 => '1' | 2 => '2' | 3 => '3' | 4 => '4'
  | 5 => '5' | 6 => '6' | 7 => '7' | 8 => '8' | _ => '9'

/-- Numeric value of a list of decimal digit characters (most significant
first), as Python int parsing of a digit run. -/
def digitsVal (cs : List Char) : Nat :=
  cs.foldl (fun a c => a * 10 + (c.toNat - 48)) 0

/-- Decimal digits of a natural number, most significant first (fuel-driven
helper; the fuel bounds the number of divisions by 10). -/
def natDigitsCore : Nat → Nat → List Char
  | 0, _ => []
  | fuel + 1, n => if n = 0 then [] else natDigitsCore fuel (n / 10) ++ [digitChar (n % 10)]

/-- Decimal digits of a natural number, most significant first. -/
def natDigits (n : Nat) : List Char :=
  if n = 0 then ['0'] else natDigitsCore n n

/-- Fractional decimal expansion of num/den (num < den), fuel-driven. -/
def fracDigitsCore (den : Nat) : Nat → Nat → List Char
  | 0, _ => []
  | fuel + 1, num =>
      if num = 0 then []
      else digitChar (num * 10 / den) :: fracDigitsCore den fuel (num * 10 % den)

/-- Formatting of a Python float value as a decimal string, modelling the
str() of the quality value used by the __unicode__ method.  The value is a
rational produced by float() on a decimal literal, so its denominator divides
a power of ten and the fuel den suffices for an exact expansion. -/
def fmtRat (q : Rat) : String :=
  let ip := q.num.natAbs / q.den
  let rem := q.num.natAbs % q.den
  let frac := fracDigitsCore q.den q.den rem
  String.mk ((if q.num < 0 then ['-'] else []) ++ natDigits ip ++
    '.' :: (if frac = [] then ['0'] else frac))

/-- Reading of an optional sign character; returns (isNegative, rest). -/
def readSign : List Char → Bool × List Char
  | '-' :: cs => (true, cs)
  | '+' :: cs => (false, cs)
  | cs => (false, cs)

/-- Parsing of the unsigned mantissa of a Python float literal:
digits, digits.digits, digits., or .digits.  Returns value and rest. -/
def parseMantissa (cs : List Char) : Option (Rat × List Char) :=
  let intD := cs.takeWhile Char.isDigit
  let cs1 := cs.drop intD.length
  match cs1 with
  | '.' :: cs2 =>
      let frD := cs2.takeWhile Char.isDigit
      let cs3 := cs2.drop frD.length
      if intD.isEmpty && frD.isEmpty then none
      else some (mkRat (Int.ofNat (digitsVal intD * 10 ^ frD.length + digitsVal frD))
                       (10 ^ frD.length), cs3)
  | _ => if intD.isEmpty then none else some ((digitsVal intD : Rat), cs1)

/-- Model of Python float(str) restricted to finite decimal literals with an
optional exponent.  Leading and trailing whitespace is stripped as float()
does; inf and nan spellings are not modelled (no claim exercises them). -/
def pyFloat? (s : String) : Option Rat :=
  let cs := pyStripList s.data
  let (neg, cs1) := readSign cs
  match parseMantissa cs1 with
  | none => none
  | some (m, rest) =>
      let v : Rat → Rat := fun x => if neg then -x else x
      match rest with
      | [] => some (v m)
      | e :: cs2 =>
          if e = 'e' || e = 'E' then
            let (negE, cs3) := readSign cs2
            let eD := cs3.takeWhile Char.isDigit
            let cs4 := cs3.drop eD.length
            if eD.isEmpty || !cs4.isEmpty then none
            else if negE then some (v (m * mkRat 1 (10 ^ digitsVal eD)))
            else some (v (m * ((10 ^ digitsVal eD : Nat) : Rat)))
          else none

/-- Python bytes.replace of the two-character pattern [a, b] by the single
character r, scanning left to right without overlap; used for the quoted
value unescaping in parse_header. -/
def replacePair (a b r : Char) : List Char → List Char
  | [] => []
  | [c] => [c]
  | c1 :: c2 :: rest =>
      if c1 = a ∧ c2 = b then r :: replacePair a b r rest
      else c1 :: replacePair a b r (c2 :: rest)

/-- Unescaping of a quoted parameter value:
replace backslash-backslash by backslash, then backslash-quote by quote,
exactly as django.http.multipartparser.parse_header does. -/
def unescapeValue (cs : List Char) : List Char :=
  replacePair '\\' '"' '"' (replacePair '\\' '\\' '\\' cs)

/-- Index of the first semicolon at or after position i. -/
def findSemiFrom (cs : List Char) (i : Nat) : Option Nat :=
  ((cs.drop i).findIdx? (· = ';')).map (· + i)

/-- Number of double-quote characters strictly before position e. -/
def countQuotes (cs : List Char) (e : Nat) : Nat :=
  (cs.take e).count '"'

/-- Loop of _parse_header_params that extends the segment end past
semicolons preceded by an odd number of quotes.  The candidate index grows
strictly at each step, so the list length is enough fuel. -/
def findParamEndCore (cs : List Char) : Nat → Option Nat → Nat
  | _, none => cs.length
  | 0, some i => i
  | fuel + 1, some i =>
      if i > 0 && countQuotes cs i % 2 = 1 then
        findParamEndCore cs fuel (findSemiFrom cs (i + 1))
      else i

/-- End of the current parameter segment in _parse_header_params:
the first semicolon whose preceding quote count is even, else the length. -/
def findParamEnd (cs : List Char) : Nat :=
  findParamEndCore cs cs.length (findSemiFrom cs 0)

/-- Recursion of _parse_header_params, driven by a fuel bounding the number
of loop iterations; every iteration consumes at least the leading
semicolon, so the list length is enough fuel. -/
def parseHeaderParamsCore : Nat → List Char → List (List Char)
  | 0, _ => []
  | _, [] => []
  | fuel + 1, c :: rest =>
      if c = ';' then
        let e := findParamEnd rest
        pyStripList (rest.take e) :: parseHeaderParamsCore fuel (rest.drop e)
      else []

/-- Model of django.http.multipartparser._parse_header_params: repeatedly
strip a leading semicolon, cut at the next even-quote-parity semicolon, and
collect the stripped segments. -/
def parseHeaderParams (cs : List Char) : List (List Char) :=
  parseHeaderParamsCore cs.length cs

/-- Insertion or replacement in the parameter dictionary (pdict[name] = value):
an existing key is overwritten in place, a new key is appended. -/
def assocSet (l : List (String × String)) (k v : String) : List (String × String) :=
  if l.any (fun p => p.1 = k) then
    l.map (fun p => if p.1 = k then (k, v) else p)
  else l ++ [(k, v)]

/-- Processing of one parameter segment of parse_header: split at the first
equals sign, strip and lower the name, strip and (when doubly quoted)
unescape the value; segments without an equals sign are dropped. -/
def parseHeaderKV (acc : List (String × String)) (p : List Char) : List (String × String) :=
  match p.findIdx? (· = '=') with
  | none => acc
  | some i =>
      let name := String.mk (lowerList (pyStripList (p.take i)))
      let v0 := pyStripList (p.drop (i + 1))
      let v :=
        if 2 ≤ v0.length ∧ v0.head? = some '"' ∧ v0.getLast? = some '"' then
          unescapeValue (v0.drop 1).dropLast
        else v0
      assocSet acc name (String.mk v)

/-- Model of django.http.multipartparser.parse_header: the first segment
(lower-cased) is the content type, the remaining segments populate the
parameter dictionary. -/
def parseHeader (cs : List Char) : String × List (String × String) :=
  match parseHeaderParams (';' :: cs) with
  | [] => ("", [])
  | key :: rest => (String.mk (lowerList key), rest.foldl parseHeaderKV [])

/-- Python str.partition on the slash, as used for
main_type, sep, sub_type = full_type.partition(slash). -/
def partitionSlash (s : String) : String × String :=
  match s.data.findIdx? (· = '/') with
  | none => (s, "")
  | some i => (String.mk (s.data.take i), String.mk (s.data.drop (i + 1)))

/-- Parsed media type, mirroring the fields of _MediaType: the original
string, the parsed full type, the parameter dictionary with q removed, the
quality value, whether q was absent, and the partitioned main and sub type. -/
structure MediaType where
  orig : String
  full_type : String
  params : List (String × String)
  quality : Rat
  quality_not_given : Bool
  main_type : String
  sub_type : String
  deriving DecidableEq, Repr

/-- Model of the _MediaType constructor.  A None argument is replaced by the
empty string; parse_header splits the string; the q parameter is popped from
the dictionary and converted with float(), whose failure (a ValueError in
Python) is modelled by returning none. -/
def mediaTypeParse (ms : Option String) : Option MediaType :=
  let s := ms.getD ""
  let ft := (parseHeader s.data).1
  let params0 := (parseHeader s.data).2
  let mainSub := partitionSlash ft
  match params0.lookup "q" with
  | none =>
      some ⟨s, ft, params0.filter (fun p => p.1 ≠ "q"), 1, true, mainSub.1, mainSub.2⟩
  | some qs =>
      (pyFloat? qs).map fun q =>
        ⟨s, ft, params0.filter (fun p => p.1 ≠ "q"), q, false, mainSub.1, mainSub.2⟩

/-- Model of _MediaType.match: every own parameter must appear in the other
with the same value, and non-wildcard sub and main types must agree. -/
def mtMatch (self other : MediaType) : Bool :=
  self.params.all (fun kv => other.params.lookup kv.1 == some kv.2) &&
  !(self.sub_type ≠ "*" && other.sub_type ≠ "*" && other.sub_type ≠ self.sub_type) &&
  !(self.main_type ≠ "*" && other.main_type ≠ "*" && other.main_type ≠ self.main_type)

/-- Precedence key of a media type, the Python 4-tuple
(main_type != star, sub_type != star, len(params) > 0, quality). -/
def MediaType.precedence (m : MediaType) : Bool × Bool × Bool × Rat :=
  (m.main_type ≠ "*", m.sub_type ≠ "*", decide (m.params.length > 0), m.quality)

/-- Python tuple comparison p > q on precedence keys, lexicographic with
False < True on the boolean components. -/
def precGtB (p q : Bool × Bool × Bool × Rat) : Bool :=
  (!q.1 && p.1) ||
  (p.1 = q.1 && ((!q.2.1 && p.2.1) ||
    (p.2.1 = q.2.1 && ((!q.2.2.1 && p.2.2.1) ||
      (p.2.2.1 = q.2.2.1 && decide (q.2.2.2 < p.2.2.2))))))

/-- Joining of character-list items with the separator semicolon-space,
modelling the join method used by __unicode__. -/
def joinSemiSp : List (List Char) → List Char
  | [] => []
  | [x] => x
  | x :: y :: xs => x ++ ';' :: ' ' :: joinSemiSp (y :: xs)

/-- Model of _MediaType.__unicode__: main/sub, then q= when it was given,
then the remaining parameters, joined by semicolon-space. -/
def MediaType.unicodeStr (m : MediaType) : String :=
  String.mk (joinSemiSp
    ((m.main_type.data ++ '/' :: m.sub_type.data) ::
      ((if m.quality_not_given then [] else ['q' :: '=' :: (fmtRat m.quality).data]) ++
        m.params.map (fun p => p.1.data ++ '=' :: p.2.data))))

/-- Model of media_type_matches(lhs, rhs): parse both strings and apply
lhs.match(rhs).  A float() failure in either parse (a ValueError in Python)
is modelled as none. -/
def mediaTypeMatches (lhs rhs : Option String) : Option Bool := do
  let l ← mediaTypeParse lhs
  let r ← mediaTypeParse rhs
  pure (mtMatch l r)

/-- Renderer candidate, identified as in the source by its declared
media_type and format strings. -/
structure Renderer where
  media_type : String
  format : String
  deriving DecidableEq, Repr

/-- Parser candidate, identified by its declared media_type string. -/
structure HttpParser where
  media_type : String
  format : String
  deriving DecidableEq, Repr

/-- Request fields consumed by the negotiator: the HTTP_ACCEPT header, the
URL-style accept and format override query parameters, and the declared
content type of the body. -/
structure Request where
  http_accept : Option String
  accept_override : Option String
  format_override : Option String
  content_type : Option String
  deriving DecidableEq, Repr

/-- Failure kinds of negotiation: Http404 raised by filter_renderers,
NotAcceptable carrying the candidate renderer list, and the ValueError
propagating from float() on a malformed q parameter. -/
inductive NegError where
  | http404
  | notAcceptable (available : List Renderer)
  | invalidQuality
  deriving DecidableEq, Repr

/-- Model of DefaultContentNegotiation.select_parser: return the first
parser whose declared media type matches the request content type, none if
no parser matches; a parse failure propagates as an error. -/
def selectParser (req : Request) : List HttpParser → Except NegError (Option HttpParser)
  | [] => .ok none
  | p :: rest =>
      match mediaTypeMatches (some p.media_type) req.content_type with
      | none => .error .invalidQuality
      | some true => .ok (some p)
      | some false => selectParser req rest

/-- Python str.split(",") on a character list: split at every comma,
keeping empty pieces. -/
def splitComma : List Char → List (List Char)
  | [] => [[]]
  | c :: rest =>
      if c = ',' then [] :: splitComma rest
      else
        match splitComma rest with
        | [] => [[c]]
        | s :: ss => (c :: s) :: ss

/-- Model of DefaultContentNegotiation.get_accept_list: the HTTP_ACCEPT
header (defaulting to */* when absent), fully replaced by the accept
override query parameter when that is present, split on commas with each
token stripped. -/
def getAcceptList (req : Request) : List String :=
  (splitComma (req.accept_override.getD (req.http_accept.getD "*/*")).data).map
    (fun t => String.mk (pyStripList t))

/-- Effective format of select_renderer: format_suffix or the format
override query parameter, following Python truthiness (None and the empty
string fall through, and a falsy result disables filtering). -/
def effectiveFormat (suffix fmtOverride : Option String) : Option String :=
  match suffix with
  | some s =>
      if s ≠ "" then some s
      else match fmtOverride with
        | some f => if f ≠ "" then some f else none
        | none => none
  | none =>
      match fmtOverride with
      | some f => if f ≠ "" then some f else none
      | none => none

/-- Model of DefaultContentNegotiation.filter_renderers: keep the renderers
whose declared format equals the requested one, raising Http404 when none
remains. -/
def filterRenderers (renderers : List Renderer) (format : String) : Except NegError (List Renderer) :=
  let rs := renderers.filter (fun r => r.format = format)
  if rs.isEmpty then .error .http404 else .ok rs

/-- Renderer list that select_renderer actually negotiates against: the
input list, filtered by the effective format when one is given. -/
def filteredRenderers (req : Request) (renderers : List Renderer)
    (format_suffix : Option String) : Except NegError (List Renderer) :=
  match effectiveFormat format_suffix req.format_override with
  | some f => filterRenderers renderers f
  | none => .ok renderers

/-- Stable insertion of x into a list sorted in decreasing key order:
x is placed before the first element of strictly smaller key, hence after
all earlier elements of equal key. -/
def insertDescBy (key : α → Bool × Bool × Bool × Rat) (x : α) : List α → List α
  | [] => [x]
  | y :: ys =>
      if precGtB (key x) (key y) then x :: y :: ys
      else y :: insertDescBy key x ys

/-- Stable sort in decreasing key order, modelling Python
list.sort(key=..., reverse=True): equal keys keep their original relative
order. -/
def sortDescBy (key : α → Bool × Bool × Bool × Rat) (l : List α) : List α :=
  l.foldl (fun acc x => insertDescBy key x acc) []

/-- Parsing of every accept token, modelling the list comprehension
building _MediaType values: the first float() failure aborts the whole
construction. -/
def parseAll : List String → Option (List MediaType)
  | [] => some []
  | s :: rest =>
      match mediaTypeParse (some s), parseAll rest with
      | some m, some ms => some (m :: ms)
      | _, _ => none

/-- Parsed accept list of select_renderer, sorted in decreasing precedence
order; a float() failure on some entry propagates as an error. -/
def parsedSortedAccepts (req : Request) : Except NegError (List MediaType) :=
  match parseAll (getAcceptList req) with
  | none => .error .invalidQuality
  | some ms => .ok (sortDescBy MediaType.precedence ms)

/-- Matching loop of select_renderer: for each renderer in order, parse its
declared media type and record the first accept entry it matches; a
renderer with no matching entry contributes nothing. -/
def buildMatches (accepts : List MediaType) : List Renderer → Except NegError (List (MediaType × Renderer))
  | [] => .ok []
  | r :: rest =>
      match mediaTypeParse (some r.media_type) with
      | none => .error .invalidQuality
      | some rm =>
          match buildMatches accepts rest with
          | .error e => .error e
          | .ok tail =>
              match accepts.find? (fun a => mtMatch rm a) with
              | some a => .ok ((a, r) :: tail)
              | none => .ok tail

/-- Candidate list of select_renderer, sorted in decreasing order of the
matched accept entry precedence, together with the (possibly filtered)
renderer list used for the NotAcceptable payload. -/
def rendererMatches (req : Request) (renderers : List Renderer)
    (format_suffix : Option String) : Except NegError (List (MediaType × Renderer) × List Renderer) :=
  match filteredRenderers req renderers format_suffix with
  | .error e => .error e
  | .ok rs =>
      match parsedSortedAccepts req with
      | .error e => .error e
      | .ok accepts =>
          match buildMatches accepts rs with
          | .error e => .error e
          | .ok ms => .ok (sortDescBy (fun p => p.1.precedence) ms, rs)

/-- Model of DefaultContentNegotiation.select_renderer: negotiate the best
candidate and resolve the returned media type string, raising NotAcceptable
with the candidate renderer list when no renderer matches any accept
entry. -/
def selectRenderer (req : Request) (renderers : List Renderer)
    (format_suffix : Option String) : Except NegError (Renderer × String) :=
  match rendererMatches req renderers format_suffix with
  | .error e => .error e
  | .ok (ms, rs) =>
      match ms with
      | [] => .error (.notAcceptable rs)
      | (mt, r) :: _ =>
          match mediaTypeParse (some r.media_type) with
          | none => .error .invalidQuality
          | some rm =>
              if precGtB rm.precedence mt.precedence then .ok (r, r.media_type)
              else .ok (r, mt.orig)

/-- Precedence sorting of a list of media type strings, as the sortem
helper of the repository test suite does: parse every token, sort by
decreasing precedence, return the original strings. -/
def sortAccepts (tokens : List String) : Option (List String) :=
  (parseAll tokens).map (fun ms => (sortDescBy MediaType.precedence ms).map MediaType.orig)

/-- JSON renderer fixture of the repository test suite. -/
def jsonRenderer : Renderer := ⟨"application/json", "json"⟩

/-- XML renderer fixture of the repository test suite. -/
def xmlRenderer : Renderer := ⟨"application/xml", "xml"⟩

/-- HTML renderer fixture of the repository test suite. -/
def htmlRenderer : Renderer := ⟨"text/html", "html"⟩

/-- Request fixture carrying only an Accept header. -/
def acceptReq (a : Option String) : Request := ⟨a, none, none, none⟩

instance {ε α : Type} [DecidableEq ε] [DecidableEq α] : DecidableEq (Except ε α) := fun x y =>
  match x, y with
  | .ok a, .ok b =>
      if h : a = b then .isTrue (by rw [h]) else .isFalse (by intro hc; cases hc; exact h rfl)
  | .error e, .error f =>
      if h : e = f then .isTrue (by rw [h]) else .isFalse (by intro hc; cases hc; exact h rfl)
  | .ok _, .error _ => .isFalse (by intro hc; cases hc)
  | .error _, .ok _ => .isFalse (by intro hc; cases hc)

/-- Splitting at every semicolon, keeping empty pieces; used to
characterize _parse_header_params on quote-free input. -/
def splitSemi : List Char → List (List Char)
  | [] => [[]]
  | c :: rest =>
      if c = ';' then [] :: splitSemi rest
      else
        match splitSemi rest with
        | [] => [[c]]
        | s :: ss => (c :: s) :: ss

/-- Whitespace-free ends: the first and last character of the list, when
present, are not Python whitespace.  This characterizes the fixed points of
pyStripList. -/
def goodEnds (cs : List Char) : Prop :=
  (∀ c, cs.head? = some c → pyIsSpace c = false) ∧
  (∀ c, cs.getLast? = some c → pyIsSpace c = false)

/-- Fixed points of ascii lower-casing, characterwise. -/
def lowerFixed (cs : List Char) : Prop := ∀ c ∈ cs, asciiLower c = c

/-- Shape of every token the header parser produces on quote-free input:
whitespace-free ends, no semicolon, no double quote. -/
def cleanToken (cs : List Char) : Prop := goodEnds cs ∧ ';' ∉ cs ∧ '"' ∉ cs

/-- Shape of every parameter entry the header parser produces on quote-free
input: a clean lower-cased name without an equals sign, and a clean value. -/
def entryGood (e : String × String) : Prop :=
  cleanToken e.1.data ∧ lowerFixed e.1.data ∧ '=' ∉ e.1.data ∧ cleanToken e.2.data

/-- Pairwise distinct keys of a parameter list, the dictionary invariant of
assocSet. -/
def keysDistinct (l : List (String × String)) : Prop :=
  l.Pairwise (fun a b => a.1 ≠ b.1)

theorem char_toNat_ofNat {n : Nat} (h : n < 55296) : (Char.ofNat n).toNat = n := by
  have hv : n.isValidChar := Or.inl h
  simp [Char.ofNat, hv, Char.toNat]
  rfl

theorem char_eq_of_toNat {a b : Char} (h : a.toNat = b.toNat) : a = b := by
  rw [← Char.ofNat_toNat a, h, Char.ofNat_toNat]

theorem char_eq_iff_toNat {a b : Char} : a = b ↔ a.toNat = b.toNat :=
  ⟨fun h => h ▸ rfl, char_eq_of_toNat⟩

theorem char_le_iff_toNat {a b : Char} : a ≤ b ↔ a.toNat ≤ b.toNat := by
  simp [Char.le_def, UInt32.le_def, BitVec.le_def, Char.toNat, UInt32.toNat]

theorem asciiLower_toNat (c : Char) :
    (asciiLower c).toNat = if 65 ≤ c.toNat ∧ c.toNat ≤ 90 then c.toNat + 32 else c.toNat := by
  unfold asciiLower
  by_cases h : ('A' ≤ c && c ≤ 'Z') = true
  · have h' := h
    rw [Bool.and_eq_true] at h'
    rcases h' with ⟨h1, h2⟩
    have h1' : 65 ≤ c.toNat := char_le_iff_toNat.mp (of_decide_eq_true h1)
    have h2' : c.toNat ≤ 90 := char_le_iff_toNat.mp (of_decide_eq_true h2)
    rw [if_pos h, if_pos ⟨h1', h2'⟩]
    exact char_toNat_ofNat (by omega)
  · rw [if_neg h, if_neg]
    rintro ⟨ha, hb⟩
    apply h
    rw [Bool.and_eq_true]
    exact ⟨decide_eq_true (char_le_iff_toNat.mpr ha), decide_eq_true (char_le_iff_toNat.mpr hb)⟩

theorem asciiLower_idem (c : Char) : asciiLower (asciiLower c) = asciiLower c := by
  apply char_eq_of_toNat
  rw [asciiLower_toNat, asciiLower_toNat c]
  by_cases h : 65 ≤ c.toNat ∧ c.toNat ≤ 90
  · rw [if_pos h, if_neg (by omega)]
  · rw [if_neg h, if_neg h]

theorem pyIsSpace_iff {c : Char} : pyIsSpace c = true ↔
    (c.toNat = 32 ∨ c.toNat = 9 ∨ c.toNat = 10 ∨ c.toNat = 13 ∨ c.toNat = 11 ∨ c.toNat = 12) := by
  have e1 : (' ' : Char).toNat = 32 := rfl
  have e2 : ('\t' : Char).toNat = 9 := rfl
  have e3 : ('\n' : Char).toNat = 10 := rfl
  have e4 : ('\r' : Char).toNat = 13 := rfl
  have e5 : ('\x0b' : Char).toNat = 11 := rfl
  have e6 : ('\x0c' : Char).toNat = 12 := rfl
  simp only [pyIsSpace, Bool.or_eq_true, decide_eq_true_eq, char_eq_iff_toNat,
    e1, e2, e3, e4, e5, e6]
  tauto

theorem pyIsSpace_asciiLower (c : Char) : pyIsSpace (asciiLower c) = pyIsSpace c := by
  have ht := asciiLower_toNat c
  cases hb : pyIsSpace c with
  | true =>
      have hn := pyIsSpace_iff.mp hb
      rw [if_neg (by omega)] at ht
      exact pyIsSpace_iff.mpr (by omega)
  | false =>
      cases hb2 : pyIsSpace (asciiLower c) with
      | false => rfl
      | true =>
          have hn := pyIsSpace_iff.mp hb2
          by_cases hmid : 65 ≤ c.toNat ∧ c.toNat ≤ 90
          · rw [if_pos hmid] at ht
            omega
          · rw [if_neg hmid] at ht
            have : pyIsSpace c = true := pyIsSpace_iff.mpr (by omega)
            rw [this] at hb
            cases hb

theorem asciiLower_eq_symbol {c x : Char} (hx : x.toNat < 65) : asciiLower c = x ↔ c = x := by
  constructor
  · intro h
    have ht := asciiLower_toNat c
    rw [h] at ht
    by_cases hmid : 65 ≤ c.toNat ∧ c.toNat ≤ 90
    · rw [if_pos hmid] at ht
      omega
    · rw [if_neg hmid] at ht
      exact char_eq_of_toNat ht.symm
  · rintro rfl
    apply char_eq_of_toNat
    rw [asciiLower_toNat, if_neg (by omega)]

theorem dropWhile_head_false {p : Char → Bool} :
    ∀ {l : List Char} {c : Char}, (l.dropWhile p).head? = some c → p c = false := by
  intro l
  induction l with
  | nil => intro c h; cases h
  | cons a as ih =>
      intro c h
      by_cases hp : p a = true
      · rw [List.dropWhile_cons, if_pos hp] at h
        exact ih h
      · rw [List.dropWhile_cons, if_neg hp] at h
        cases h
        simpa using hp

theorem dropWhile_eq_self_head {p : Char → Bool} {l : List Char}
    (h : ∀ c, l.head? = some c → p c = false) : l.dropWhile p = l := by
  cases l with
  | nil => rfl
  | cons a as => rw [List.dropWhile_cons, if_neg (by rw [h a rfl]; exact Bool.false_ne_true)]

theorem mem_of_mem_dropWhile {p : Char → Bool} {l : List Char} {c : Char}
    (h : c ∈ l.dropWhile p) : c ∈ l :=
  (List.dropWhile_sublist p).mem h

theorem mem_of_mem_pyStripList {l : List Char} {c : Char} (h : c ∈ pyStripList l) : c ∈ l := by
  unfold pyStripList at h
  rw [List.mem_reverse] at h
  have h2 := mem_of_mem_dropWhile h
  rw [List.mem_reverse] at h2
  exact mem_of_mem_dropWhile h2

theorem getLast?_dropWhile {p : Char → Bool} {l : List Char} {c : Char}
    (h : (l.dropWhile p).getLast? = some c) : l.getLast? = some c := by
  obtain ⟨t, ht⟩ := (List.dropWhile_suffix p (l := l))
  rw [← ht, List.getLast?_append_of_ne_nil]
  · exact h
  · intro hnil
    rw [hnil] at h
    cases h

theorem goodEnds_pyStripList (l : List Char) : goodEnds (pyStripList l) := by
  constructor
  · intro c h
    unfold pyStripList at h
    rw [List.head?_reverse] at h
    have h2 := getLast?_dropWhile h
    rw [List.getLast?_reverse] at h2
    exact dropWhile_head_false h2
  · intro c h
    unfold pyStripList at h
    rw [List.getLast?_reverse] at h
    exact dropWhile_head_false h

theorem pyStripList_eq_self {l : List Char} (h : goodEnds l) : pyStripList l = l := by
  obtain ⟨h1, h2⟩ := h
  unfold pyStripList
  rw [dropWhile_eq_self_head h1]
  rw [dropWhile_eq_self_head (fun c hc => h2 c (by rwa [List.head?_reverse] at hc))]
  exact List.reverse_reverse l

theorem pyStripList_idem (l : List Char) : pyStripList (pyStripList l) = pyStripList l :=
  pyStripList_eq_self (goodEnds_pyStripList l)

theorem lookup_filter_ne (k : String) (l : List (String × String)) :
    (l.filter (fun p => p.1 ≠ k)).lookup k = none := by
  induction l with
  | nil => rfl
  | cons p rest ih =>
      by_cases h : p.1 = k
      · simpa [List.filter_cons, h] using ih
      · have hb : (k == p.1) = false := beq_eq_false_iff_ne.mpr (Ne.symm h)
        simp [List.filter_cons, h, List.lookup, hb, ih]
        exact fun a b _ h1 h2 => h1 h2.symm

/-- C7. The claim that parsing an empty or absent media-type string yields
the full wildcard */* is false: parse_header returns an empty full type and
partitioning the empty string gives empty main and sub types, not "*". -/
theorem claim_C7_counterexample :
    (mediaTypeParse (some "")).map (fun m => (m.main_type, m.sub_type)) = some ("", "") ∧
    (mediaTypeParse none).map (fun m => (m.main_type, m.sub_type)) = some ("", "") ∧
    ¬ (mediaTypeParse (some "")).map (fun m => (m.main_type, m.sub_type)) = some ("*", "*") := by
  refine ⟨by decide, by decide, by decide⟩

/-- C7 (amended). Parsing an empty or absent media-type string yields a
media type with empty main and sub type, empty parameters and default
quality 1; the */* wildcard default for an absent Accept header is supplied
by get_accept_list, not by the parser. -/
theorem claim_C7_amended :
    mediaTypeParse none = mediaTypeParse (some "") ∧
    (mediaTypeParse (some "")).map
        (fun m => (m.main_type, m.sub_type, m.params, m.quality, m.quality_not_given)) =
      some ("", "", [], 1, true) ∧
    getAcceptList ⟨none, none, none, none⟩ = ["*/*"] := by
  refine ⟨by decide, by decide, by decide⟩

/-- C8. The claim that the quality is always in [0.0, 1.0] is false: the
code converts the q parameter with float() and never clamps, so q=2.5 is
accepted with quality 5/2 > 1. -/
theorem claim_C8_counterexample :
    (mediaTypeParse (some "text/html; q=2.5")).map (fun m => (m.quality, m.params)) =
      some (mkRat 5 2, []) ∧
    ¬ mkRat 5 2 ≤ 1 := by
  refine ⟨by decide, by decide⟩

/-- C8 (amended). For every successfully parsed media type, the q parameter
is excluded from the parameters mapping and the quality defaults to 1.0
when no q parameter was present; the parsed quality is the float value of
the q parameter, with no range check restricting it to [0.0, 1.0]. -/
theorem claim_C8_amended :
    ∀ (s : Option String) (m : MediaType), mediaTypeParse s = some m →
      m.params.lookup "q" = none ∧ (m.quality_not_given = true → m.quality = 1) := by
  intro s m h
  simp only [mediaTypeParse] at h
  split at h
  · cases h
    exact ⟨lookup_filter_ne _ _, fun _ => rfl⟩
  · rename_i qs hq
    cases hpf : pyFloat? qs with
    | none => rw [hpf] at h; cases h
    | some q =>
        rw [hpf] at h
        cases h
        refine ⟨lookup_filter_ne _ _, fun hfalse => by cases hfalse⟩

/-- C8 witness at the concrete input application/json; indent=8. -/
theorem claim_C8_witness :
    (MediaType.mk "application/json; indent=8" "application/json" [("indent", "8")] 1 true
      "application" "json").params.lookup "q" = none ∧
    ((MediaType.mk "application/json; indent=8" "application/json" [("indent", "8")] 1 true
      "application" "json").quality_not_given = true →
      (MediaType.mk "application/json; indent=8" "application/json" [("indent", "8")] 1 true
        "application" "json").quality = 1) :=
  claim_C8_amended (some "application/json; indent=8") _ (by decide)

/-- C10. A parsed media type with at least one (non-q) parameter never
matches the bare wildcard */*, because the parameter subset check runs
before the wildcard type rules; consequently a renderer declaring
parameters is never matched by a bare */* accept entry and negotiation
fails with NotAcceptable. -/
theorem claim_C10 :
    (∀ m : MediaType, m.params ≠ [] →
       (mediaTypeParse (some "*/*")).map (fun w => mtMatch m w) = some false) ∧
    selectRenderer (acceptReq (some "*/*")) [⟨"application/json; version=1", "json"⟩] none =
      .error (.notAcceptable [⟨"application/json; version=1", "json"⟩]) := by
  constructor
  · intro m hm
    have hw : mediaTypeParse (some "*/*") = some ⟨"*/*", "*/*", [], 1, true, "*", "*"⟩ := by
      decide
    rw [hw]
    cases hmp : m.params with
    | nil => exact absurd hmp hm
    | cons kv rest => simp [mtMatch, hmp, List.lookup]
  · decide

/-- C10 witness at a concrete parameterized media type. -/
theorem claim_C10_witness :
    (mediaTypeParse (some "*/*")).map
      (fun w => mtMatch (MediaType.mk "application/json; indent=4" "application/json"
        [("indent", "4")] 1 true "application" "json") w) = some false :=
  claim_C10.1 _ (by decide)

/-- C3. The precedence key is the 4-tuple
(main_type not star, sub_type not star, parameters nonempty, quality),
compared lexicographically with higher winning, and sorting the three
example strings in decreasing precedence yields exactly the expected
order. -/
theorem claim_C3 :
    (∀ m : MediaType, m.precedence =
      (decide (m.main_type ≠ "*"), decide (m.sub_type ≠ "*"),
        decide (m.params.length > 0), m.quality)) ∧
    (∀ p q : Bool × Bool × Bool × Rat, precGtB p q = true ↔
      ((q.1 = false ∧ p.1 = true) ∨ (p.1 = q.1 ∧
        ((q.2.1 = false ∧ p.2.1 = true) ∨ (p.2.1 = q.2.1 ∧
          ((q.2.2.1 = false ∧ p.2.2.1 = true) ∨
            (p.2.2.1 = q.2.2.1 ∧ q.2.2.2 < p.2.2.2))))))) ∧
    sortAccepts ["text/html", "text/plain", "text/plain; width=80"] =
      some ["text/plain; width=80", "text/html", "text/plain"] := by
  refine ⟨fun m => rfl, ?_, by decide⟩
  intro p q
  obtain ⟨a1, a2, a3, a4⟩ := p
  obtain ⟨b1, b2, b3, b4⟩ := q
  cases a1 <;> cases b1 <;> cases a2 <;> cases b2 <;> cases a3 <;> cases b3 <;>
    simp [precGtB]

/-- C2. The match predicate holds exactly when every own parameter appears
in the other side with an identical value and the non-wildcard main and sub
types agree; it is asymmetric, as the application/json versus
application/json; indent=4 pair shows. -/
theorem claim_C2 :
    (∀ a b : MediaType, mtMatch a b = true ↔
      ((∀ kv ∈ a.params, b.params.lookup kv.1 = some kv.2) ∧
       (a.sub_type ≠ "*" → b.sub_type ≠ "*" → b.sub_type = a.sub_type) ∧
       (a.main_type ≠ "*" → b.main_type ≠ "*" → b.main_type = a.main_type))) ∧
    mediaTypeMatches (some "application/json") (some "application/json; indent=4") = some true ∧
    mediaTypeMatches (some "application/json; indent=4") (some "application/json") = some false := by
  refine ⟨?_, by decide, by decide⟩
  intro a b
  simp only [mtMatch, Bool.and_eq_true, List.all_eq_true, beq_iff_eq, Bool.not_eq_true',
    Bool.and_eq_false_iff, decide_eq_true_eq, decide_eq_false_iff_not, not_not]
  tauto

/-- C5. When an effective format is given, select_renderer filters the
renderers by declared format and an empty filtered set raises Http404, a
failure distinct from NotAcceptable; Accept negotiation is never reached in
that case. -/
theorem claim_C5 :
    (∀ (req : Request) (rs : List Renderer) (suffix : Option String) (f : String),
       effectiveFormat suffix req.format_override = some f →
       rs.filter (fun r => r.format = f) = [] →
       selectRenderer req rs suffix = .error .http404) ∧
    (∀ (rs : List Renderer) (f : String),
       filterRenderers rs f =
         if (rs.filter (fun r => r.format = f)).isEmpty then .error .http404
         else .ok (rs.filter (fun r => r.format = f))) ∧
    (∀ l : List Renderer, NegError.http404 ≠ NegError.notAcceptable l) ∧
    selectRenderer (acceptReq (some "application/xml")) [jsonRenderer, htmlRenderer]
      (some "xml") = .error .http404 := by
  refine ⟨?_, fun rs f => rfl, fun l h => NegError.noConfusion h, by decide⟩
  intro req rs suffix f h1 h2
  simp [selectRenderer, rendererMatches, filteredRenderers, h1, filterRenderers, h2]

/-- C5 witness at a concrete format suffix no renderer declares. -/
theorem claim_C5_witness :
    selectRenderer (acceptReq (some "*/*")) [jsonRenderer] (some "yaml") = .error .http404 :=
  claim_C5.1 _ _ _ "yaml" (by decide) (by decide)

/-- C6. Given that every parse involved succeeds, select_parser returns the
first parser in order whose declared media type matches the request content
type, and none when no parser matches; no further disambiguation applies. -/
theorem claim_C6 :
    ∀ (req : Request) (parsers : List HttpParser),
      (∀ p ∈ parsers, (mediaTypeMatches (some p.media_type) req.content_type).isSome = true) →
      selectParser req parsers =
        .ok (parsers.find?
          (fun p => mediaTypeMatches (some p.media_type) req.content_type == some true)) := by
  intro req parsers
  induction parsers with
  | nil => intro _; rfl
  | cons p rest ih =>
      intro h
      have hp := h p (List.mem_cons_self p rest)
      cases hmb : mediaTypeMatches (some p.media_type) req.content_type with
      | none => rw [hmb] at hp; cases hp
      | some b =>
          cases b with
          | true => simp [selectParser, List.find?, hmb]
          | false =>
              have ih' := ih (fun q hq => h q (List.mem_cons_of_mem p hq))
              simp [selectParser, List.find?, hmb, ih']

/-- C6 witness at a concrete non-matching parser list. -/
theorem claim_C6_witness :
    selectParser ⟨none, none, none, some "text/plain"⟩ [⟨"application/json", "json"⟩] =
      .ok (([⟨"application/json", "json"⟩] : List HttpParser).find?
        (fun p => mediaTypeMatches (some p.media_type) (some "text/plain") == some true)) :=
  claim_C6 ⟨none, none, none, some "text/plain"⟩ _ (by decide)

theorem buildMatches_eq_nil (accepts : List MediaType) (rs : List Renderer)
    (h : ∀ r ∈ rs, (mediaTypeParse (some r.media_type)).isSome = true ∧
      ∀ a ∈ accepts, (mediaTypeParse (some r.media_type)).map (fun rm => mtMatch rm a) =
        some false) :
    buildMatches accepts rs = .ok [] := by
  induction rs with
  | nil => rfl
  | cons r rest ih =>
      obtain ⟨hs, hall⟩ := h r (List.mem_cons_self r rest)
      cases hpr : mediaTypeParse (some r.media_type) with
      | none => rw [hpr] at hs; cases hs
      | some rm =>
          have hfind : accepts.find? (fun a => mtMatch rm a) = none := by
            rw [List.find?_eq_none]
            intro a ha
            have hm := hall a ha
            rw [hpr] at hm
            simp only [Option.map_some'] at hm
            simp [Option.some.inj hm]
          have ih' := ih (fun q hq => h q (List.mem_cons_of_mem r hq))
          simp [buildMatches, hpr, ih', hfind]

/-- C4. When, after optional format filtering, no renderer media type
matches any entry of the parsed accept list, select_renderer fails with
NotAcceptable carrying the full candidate renderer list. -/
theorem claim_C4 :
    ∀ (req : Request) (renderers : List Renderer) (suffix : Option String)
      (rs : List Renderer) (accepts : List MediaType),
      filteredRenderers req renderers suffix = .ok rs →
      parsedSortedAccepts req = .ok accepts →
      (∀ r ∈ rs, (mediaTypeParse (some r.media_type)).isSome = true ∧
        ∀ a ∈ accepts, (mediaTypeParse (some r.media_type)).map (fun rm => mtMatch rm a) =
          some false) →
      selectRenderer req renderers suffix = .error (.notAcceptable rs) := by
  intro req renderers suffix rs accepts h1 h2 h3
  have hb := buildMatches_eq_nil accepts rs h3
  simp [selectRenderer, rendererMatches, h1, h2, hb, sortDescBy]

/-- C4 witness: a request accepting only foo/bar against the json renderer
fails with NotAcceptable carrying that renderer. -/
theorem claim_C4_witness :
    selectRenderer (acceptReq (some "foo/bar")) [jsonRenderer] none =
      .error (.notAcceptable [jsonRenderer]) :=
  claim_C4 (acceptReq (some "foo/bar")) [jsonRenderer] none [jsonRenderer]
    [⟨"foo/bar", "foo/bar", [], 1, true, "foo", "bar"⟩] (by decide) (by decide) (by decide)

theorem mem_insertDescBy {α : Type} {key : α → Bool × Bool × Bool × Rat} {x y : α} :
    ∀ {l : List α}, y ∈ insertDescBy key x l → y = x ∨ y ∈ l
  | [], h => .inl (by simpa [insertDescBy] using h)
  | z :: zs, h => by
      simp only [insertDescBy] at h
      split at h
      · rcases List.mem_cons.mp h with h' | h'
        · exact .inl h'
        · exact .inr h'
      · rcases List.mem_cons.mp h with h' | h'
        · exact .inr (h' ▸ List.mem_cons_self z zs)
        · rcases mem_insertDescBy h' with h2 | h2
          · exact .inl h2
          · exact .inr (List.mem_cons_of_mem z h2)

theorem mem_sortDescBy_foldl {α : Type} {key : α → Bool × Bool × Bool × Rat} :
    ∀ (l acc : List α) (y : α),
      y ∈ l.foldl (fun a x => insertDescBy key x a) acc → y ∈ acc ∨ y ∈ l := by
  intro l
  induction l with
  | nil => intro acc y h; exact .inl h
  | cons x xs ih =>
      intro acc y h
      rcases ih _ y h with h' | h'
      · rcases mem_insertDescBy h' with h2 | h2
        · exact .inr (h2 ▸ List.mem_cons_self x xs)
        · exact .inl h2
      · exact .inr (List.mem_cons_of_mem x h')

theorem mem_sortDescBy {α : Type} {key : α → Bool × Bool × Bool × Rat} {l : List α} {y : α}
    (h : y ∈ sortDescBy key l) : y ∈ l := by
  rcases mem_sortDescBy_foldl l [] y h with h' | h'
  · cases h'
  · exact h'

theorem parse_orig {s : String} {m : MediaType} (h : mediaTypeParse (some s) = some m) :
    m.orig = s := by
  simp only [mediaTypeParse] at h
  split at h
  · cases h; rfl
  · obtain ⟨q, _, hm⟩ := Option.map_eq_some'.mp h
    subst hm
    rfl

theorem parseAll_mem : ∀ {ts : List String} {ms : List MediaType} {m : MediaType},
    parseAll ts = some ms → m ∈ ms → ∃ t ∈ ts, mediaTypeParse (some t) = some m := by
  intro ts
  induction ts with
  | nil => intro ms m h hm; cases h; cases hm
  | cons t rest ih =>
      intro ms m h hm
      simp only [parseAll] at h
      cases hp : mediaTypeParse (some t) with
      | none => rw [hp] at h; cases h
      | some m0 =>
          cases hr : parseAll rest with
          | none => rw [hp, hr] at h; cases h
          | some ms0 =>
              rw [hp, hr] at h
              cases h
              rcases List.mem_cons.mp hm with h1 | h1
              · exact ⟨t, List.mem_cons_self t rest, by rw [← h1] at hp; exact hp⟩
              · obtain ⟨t', ht', hpt'⟩ := ih hr h1
                exact ⟨t', List.mem_cons_of_mem t ht', hpt'⟩

theorem buildMatches_mem_accepts : ∀ {accepts : List MediaType} {rs : List Renderer}
    {ms : List (MediaType × Renderer)} {mt : MediaType} {r : Renderer},
    buildMatches accepts rs = .ok ms → (mt, r) ∈ ms → mt ∈ accepts := by
  intro accepts rs
  induction rs with
  | nil => intro ms mt r h hm; cases h; cases hm
  | cons r0 rest ih =>
      intro ms mt r h hm
      simp only [buildMatches] at h
      split at h
      · cases h
      · rename_i rm hp
        split at h
        · cases h
        · rename_i tail hb
          split at h
          · rename_i a hf
            cases h
            rcases List.mem_cons.mp hm with h1 | h1
            · injection h1 with hmt _
              exact hmt ▸ List.mem_of_find?_eq_some hf
            · exact ih hb h1
          · rename_i hf
            cases h
            exact ih hb hm

theorem parsedSortedAccepts_orig {req : Request} {accepts : List MediaType} {mt : MediaType}
    (h : parsedSortedAccepts req = .ok accepts) (hm : mt ∈ accepts) :
    mt.orig ∈ getAcceptList req := by
  simp only [parsedSortedAccepts] at h
  cases hp : parseAll (getAcceptList req) with
  | none => rw [hp] at h; cases h
  | some ms =>
      rw [hp] at h
      cases h
      obtain ⟨t, ht, hpt⟩ := parseAll_mem hp (mem_sortDescBy hm)
      rw [parse_orig hpt]
      exact ht

theorem rendererMatches_orig {req : Request} {renderers rs : List Renderer}
    {suffix : Option String} {ms : List (MediaType × Renderer)} {mt : MediaType} {r : Renderer}
    (h : rendererMatches req renderers suffix = .ok (ms, rs)) (hm : (mt, r) ∈ ms) :
    mt.orig ∈ getAcceptList req := by
  simp only [rendererMatches] at h
  split at h
  · cases h
  · rename_i rs0 h1
    split at h
    · cases h
    · rename_i accepts h2
      split at h
      · cases h
      · rename_i ms0 h3
        cases h
        exact parsedSortedAccepts_orig h2 (buildMatches_mem_accepts h3 (mem_sortDescBy hm))

/-- C1. For every successful negotiation, if the chosen renderer's declared
media type has strictly greater precedence than the matched accept entry,
the renderer's own declared string is returned, otherwise the client's
matched expression is echoed back verbatim (it is byte-for-byte one of the
comma-split stripped tokens of the client's accept list); in particular the
Accept header application/json; indent=8 resolves to exactly that string. -/
theorem claim_C1 :
    (∀ (req : Request) (renderers : List Renderer) (suffix : Option String)
       (mt : MediaType) (r : Renderer) (tail : List (MediaType × Renderer))
       (rs : List Renderer) (rm : MediaType),
       rendererMatches req renderers suffix = .ok ((mt, r) :: tail, rs) →
       mediaTypeParse (some r.media_type) = some rm →
       selectRenderer req renderers suffix =
         .ok (r, if precGtB rm.precedence mt.precedence then r.media_type else mt.orig) ∧
       mt.orig ∈ getAcceptList req) ∧
    selectRenderer (acceptReq (some "application/json; indent=8")) [jsonRenderer, htmlRenderer]
      none = .ok (jsonRenderer, "application/json; indent=8") := by
  constructor
  · intro req renderers suffix mt r tail rs rm h1 h2
    constructor
    · simp only [selectRenderer, h1, h2]
      split <;> rfl
    · exact rendererMatches_orig h1 (List.mem_cons_self (mt, r) tail)
  · decide

/-- C1 witness at the concrete indent=8 negotiation. -/
theorem claim_C1_witness :
    (selectRenderer (acceptReq (some "application/json; indent=8")) [jsonRenderer, htmlRenderer]
        none =
      .ok (jsonRenderer,
        if precGtB (MediaType.mk "application/json" "application/json" [] 1 true "application"
            "json").precedence
          (MediaType.mk "application/json; indent=8" "application/json" [("indent", "8")] 1 true
            "application" "json").precedence
        then jsonRenderer.media_type
        else (MediaType.mk "application/json; indent=8" "application/json" [("indent", "8")] 1
          true "application" "json").orig) ∧
      (MediaType.mk "application/json; indent=8" "application/json" [("indent", "8")] 1 true
        "application" "json").orig ∈
        getAcceptList (acceptReq (some "application/json; indent=8"))) :=
  claim_C1.1 (acceptReq (some "application/json; indent=8")) [jsonRenderer, htmlRenderer] none
    _ jsonRenderer [] [jsonRenderer, htmlRenderer] _ (by decide) (by decide)

theorem string_data_mk (l : List Char) : (String.mk l).data = l := rfl

theorem char_isDigit_iff {c : Char} : c.isDigit = true ↔ 48 ≤ c.toNat ∧ c.toNat ≤ 57 := by
  simp [Char.isDigit, Bool.and_eq_true, decide_eq_true_eq, UInt32.le_def, BitVec.le_def,
    Char.toNat, UInt32.toNat]

theorem digitChar_isDigit (d : Nat) : (digitChar d).isDigit = true := by
  unfold digitChar
  split <;> decide

theorem natDigitsCore_digits : ∀ (fuel n : Nat), ∀ c ∈ natDigitsCore fuel n, c.isDigit = true := by
  intro fuel
  induction fuel with
  | zero => intro n c hc; cases hc
  | succ f ih =>
      intro n c hc
      unfold natDigitsCore at hc
      by_cases h : n = 0
      · rw [if_pos h] at hc; cases hc
      · rw [if_neg h] at hc
        rcases List.mem_append.mp hc with h1 | h1
        · exact ih _ c h1
        · rw [List.mem_singleton.mp h1]
          exact digitChar_isDigit _

theorem natDigits_digits : ∀ n : Nat, ∀ c ∈ natDigits n, c.isDigit = true := by
  intro n c hc
  unfold natDigits at hc
  by_cases h : n = 0
  · rw [if_pos h] at hc
    rw [List.mem_singleton.mp hc]
    decide
  · rw [if_neg h] at hc
    exact natDigitsCore_digits n n c hc

theorem natDigits_ne_nil (n : Nat) : natDigits n ≠ [] := by
  unfold natDigits
  by_cases h : n = 0
  · rw [if_pos h]; simp
  · rw [if_neg h]
    rcases n with _ | f
    · exact absurd rfl h
    · simp [natDigitsCore]

theorem fracDigitsCore_digits :
    ∀ (den fuel num : Nat), ∀ c ∈ fracDigitsCore den fuel num, c.isDigit = true := by
  intro den fuel
  induction fuel with
  | zero => intro num c hc; cases hc
  | succ f ih =>
      intro num c hc
      unfold fracDigitsCore at hc
      by_cases h : num = 0
      · rw [if_pos h] at hc; cases hc
      · rw [if_neg h] at hc
        rcases List.mem_cons.mp hc with h1 | h1
        · rw [h1]; exact digitChar_isDigit _
        · exact ih _ c h1

theorem head?_mem {l : List Char} {c : Char} (h : l.head? = some c) : c ∈ l := by
  cases l with
  | nil => cases h
  | cons a as =>
      have ha : a = c := by injection h
      rw [← ha]
      exact List.mem_cons_self a as

theorem getLast?_mem {l : List Char} {c : Char} (h : l.getLast? = some c) : c ∈ l := by
  rw [← List.head?_reverse] at h
  rw [← List.mem_reverse]
  exact head?_mem h

theorem pyStripList_eq_self_of_all {l : List Char} (h : ∀ c ∈ l, pyIsSpace c = false) :
    pyStripList l = l :=
  pyStripList_eq_self ⟨fun c hc => h c (head?_mem hc), fun c hc => h c (getLast?_mem hc)⟩

theorem pyIsSpace_false_of {c : Char} (h : c = '-' ∨ c = '.' ∨ c.isDigit = true) :
    pyIsSpace c = false := by
  rcases h with rfl | rfl | hd
  · decide
  · decide
  · cases hb : pyIsSpace c with
    | false => rfl
    | true =>
        have h1 := pyIsSpace_iff.mp hb
        have h2 := char_isDigit_iff.mp hd
        omega

theorem takeWhile_append_of {p : Char → Bool} :
    ∀ {a : List Char} {x : Char} {b : List Char}, (∀ c ∈ a, p c = true) → p x = false →
      (a ++ x :: b).takeWhile p = a := by
  intro a
  induction a with
  | nil => intro x b _ hx; simp [List.takeWhile_cons, hx]
  | cons d ds ih =>
      intro x b ha hx
      rw [List.cons_append, List.takeWhile_cons, if_pos (ha d (List.mem_cons_self d ds)),
        ih (fun c hc => ha c (List.mem_cons_of_mem d hc)) hx]

theorem takeWhile_eq_self_of {p : Char → Bool} :
    ∀ {l : List Char}, (∀ c ∈ l, p c = true) → l.takeWhile p = l := by
  intro l
  induction l with
  | nil => intro _; rfl
  | cons d ds ih =>
      intro h
      rw [List.takeWhile_cons, if_pos (h d (List.mem_cons_self d ds)),
        ih (fun c hc => h c (List.mem_cons_of_mem d hc))]

theorem parseMantissa_digits {a b : List Char} (ha : ∀ c ∈ a, c.isDigit = true)
    (hb : ∀ c ∈ b, c.isDigit = true) (ha' : a ≠ []) :
    ∃ v, parseMantissa (a ++ '.' :: b) = some (v, []) := by
  unfold parseMantissa
  have ht : (a ++ '.' :: b).takeWhile Char.isDigit = a := takeWhile_append_of ha (by decide)
  have htb : b.takeWhile Char.isDigit = b := takeWhile_eq_self_of hb
  have hae : a.isEmpty = false := by
    cases a with
    | nil => exact absurd rfl ha'
    | cons x xs => rfl
  simp [ht, List.drop_left, htb, List.drop_length, hae]

theorem pyFloat?_succeeds {pre a b : List Char} (hpre : pre = [] ∨ pre = ['-'])
    (ha : ∀ c ∈ a, c.isDigit = true) (hb : ∀ c ∈ b, c.isDigit = true)
    (ha' : a ≠ []) (hb' : b ≠ []) :
    ∃ r, pyFloat? (String.mk (pre ++ a ++ '.' :: b)) = some r := by
  have hmem : ∀ c ∈ a ++ '.' :: b, c = '-' ∨ c = '.' ∨ c.isDigit = true := by
    intro c hc
    rcases List.mem_append.mp hc with h1 | h1
    · exact .inr (.inr (ha c h1))
    · rcases List.mem_cons.mp h1 with h2 | h2
      · exact .inr (.inl h2)
      · exact .inr (.inr (hb c h2))
  obtain ⟨v, hv⟩ := parseMantissa_digits ha hb ha'
  have hstrip : pyStripList (a ++ '.' :: b) = a ++ '.' :: b :=
    pyStripList_eq_self_of_all (fun c hc => pyIsSpace_false_of (hmem c hc))
  rcases hpre with rfl | rfl
  · rcases haa : a with _ | ⟨d, ds⟩
    · exact absurd haa ha'
    · subst haa
      have hd := ha d (List.mem_cons_self d ds)
      have h1 : ¬ d = '-' := fun he => by rw [he] at hd; exact absurd hd (by decide)
      have h2 : ¬ d = '+' := fun he => by rw [he] at hd; exact absurd hd (by decide)
      have hrs : readSign (d :: (ds ++ '.' :: b)) = (false, d :: (ds ++ '.' :: b)) := by
        simp [readSign, h1, h2]
      have hv' : parseMantissa (d :: (ds ++ '.' :: b)) = some (v, []) := by
        simpa [List.cons_append] using hv
      have hstrip' : pyStripList (d :: (ds ++ '.' :: b)) = d :: (ds ++ '.' :: b) := by
        simpa [List.cons_append] using hstrip
      unfold pyFloat?
      simp only [string_data_mk, List.nil_append, List.cons_append, hstrip', hrs, hv']
      exact ⟨_, rfl⟩
  · have hstrip' : pyStripList ('-' :: (a ++ '.' :: b)) = '-' :: (a ++ '.' :: b) := by
      apply pyStripList_eq_self_of_all
      intro c hc
      apply pyIsSpace_false_of
      rcases List.mem_cons.mp hc with h2 | h2
      · exact .inl h2
      · exact hmem c h2
    have hrs : readSign ('-' :: (a ++ '.' :: b)) = (true, a ++ '.' :: b) := rfl
    unfold pyFloat?
    simp only [string_data_mk, List.cons_append, List.nil_append, hstrip', hrs, hv]
    exact ⟨_, rfl⟩

theorem pyFloat?_fmtRat (q : Rat) : ∃ r, pyFloat? (fmtRat q) = some r := by
  unfold fmtRat
  apply pyFloat?_succeeds
  · by_cases h : q.num < 0
    · exact .inr (by rw [if_pos h])
    · exact .inl (by rw [if_neg h])
  · exact natDigits_digits _
  · intro c hc
    by_cases h : fracDigitsCore q.den q.den (q.num.natAbs % q.den) = []
    · rw [if_pos h] at hc
      rw [List.mem_singleton.mp hc]
      decide
    · rw [if_neg h] at hc
      exact fracDigitsCore_digits _ _ _ c hc
  · exact natDigits_ne_nil _
  · by_cases h : fracDigitsCore q.den q.den (q.num.natAbs % q.den) = []
    · rw [if_pos h]; simp
    · rw [if_neg h]; exact h

theorem splitSemi_ne_nil : ∀ (cs : List Char), splitSemi cs ≠ [] := by
  intro cs
  cases cs with
  | nil => simp [splitSemi]
  | cons c rest =>
      by_cases hc : c = ';'
      · simp [splitSemi, hc]
      · simp only [splitSemi, if_neg hc]
        cases h : splitSemi rest <;> simp

theorem splitSemi_no_semi : ∀ {cs : List Char}, ';' ∉ cs → splitSemi cs = [cs] := by
  intro cs
  induction cs with
  | nil => intro _; rfl
  | cons c rest ih =>
      intro h
      have hc : ¬ c = ';' := fun he => h (he ▸ List.mem_cons_self c rest)
      simp only [splitSemi, if_neg hc]
      rw [ih (fun hm => h (List.mem_cons_of_mem c hm))]

theorem splitSemi_append_semi : ∀ {pre : List Char} (post : List Char), ';' ∉ pre →
    splitSemi (pre ++ ';' :: post) = pre :: splitSemi post := by
  intro pre
  induction pre with
  | nil => intro post _; simp [splitSemi]
  | cons c pre' ih =>
      intro post h
      have hc : ¬ c = ';' := fun he => h (he ▸ List.mem_cons_self c pre')
      rw [List.cons_append]
      simp only [splitSemi, if_neg hc]
      rw [ih post (fun hm => h (List.mem_cons_of_mem c hm))]

theorem splitSemi_pieces : ∀ (cs : List Char) (p : List Char), p ∈ splitSemi cs →
    ';' ∉ p ∧ ∀ c ∈ p, c ∈ cs := by
  intro cs
  induction cs with
  | nil =>
      intro p hp
      rw [List.mem_singleton.mp hp]
      exact ⟨List.not_mem_nil ';', fun c hc => absurd hc (List.not_mem_nil c)⟩
  | cons c rest ih =>
      intro p hp
      by_cases hc : c = ';'
      · rw [show splitSemi (c :: rest) = [] :: splitSemi rest from by simp [splitSemi, hc]] at hp
        rcases List.mem_cons.mp hp with h1 | h1
        · rw [h1]
          exact ⟨List.not_mem_nil ';', fun d hd => absurd hd (List.not_mem_nil d)⟩
        · obtain ⟨hs, hm⟩ := ih p h1
          exact ⟨hs, fun d hd => List.mem_cons_of_mem c (hm d hd)⟩
      · simp only [splitSemi, if_neg hc] at hp
        cases hsp : splitSemi rest with
        | nil => exact absurd hsp (splitSemi_ne_nil rest)
        | cons s ss =>
            rw [hsp] at hp
            rcases List.mem_cons.mp hp with h1 | h1
            · obtain ⟨hs, hm⟩ := ih s (hsp ▸ List.mem_cons_self s ss)
              constructor
              · intro hmem
                rcases List.mem_cons.mp (h1 ▸ hmem) with h2 | h2
                · exact hc h2.symm
                · exact hs h2
              · intro d hd
                rcases List.mem_cons.mp (h1 ▸ hd) with h2 | h2
                · exact h2 ▸ List.mem_cons_self c rest
                · exact List.mem_cons_of_mem c (hm d h2)
            · obtain ⟨hs, hm⟩ := ih p (hsp ▸ List.mem_cons_of_mem s h1)
              exact ⟨hs, fun d hd => List.mem_cons_of_mem c (hm d hd)⟩

theorem joinSemiSp_cons_sp (y : List Char) (ys : List (List Char)) :
    ' ' :: joinSemiSp (y :: ys) = joinSemiSp ((' ' :: y) :: ys) := by
  cases ys <;> rfl

theorem splitSemi_join : ∀ (xs : List (List Char)) (x : List Char), ';' ∉ x →
    (∀ y ∈ xs, ';' ∉ y) →
    splitSemi (joinSemiSp (x :: xs)) = x :: xs.map (fun y => ' ' :: y) := by
  intro xs
  induction xs with
  | nil => intro x hx _; exact splitSemi_no_semi hx
  | cons y ys ih =>
      intro x hx hys
      show splitSemi (x ++ ';' :: (' ' :: joinSemiSp (y :: ys))) = _
      rw [splitSemi_append_semi _ hx, joinSemiSp_cons_sp,
        ih (' ' :: y) (by
          intro hm
          rcases List.mem_cons.mp hm with h1 | h1
          · cases h1
          · exact hys y (List.mem_cons_self y ys) h1)
        (fun z hz => hys z (List.mem_cons_of_mem y hz))]
      rfl

theorem findIdx?_semi_none : ∀ {cs : List Char} (i : Nat), ';' ∉ cs →
    cs.findIdx? (· = ';') i = none := by
  intro cs
  induction cs with
  | nil => intro i _; rfl
  | cons c rest ih =>
      intro i h
      have hc : ¬ c = ';' := fun he => h (he ▸ List.mem_cons_self c rest)
      rw [List.findIdx?_cons, if_neg (by simpa using hc)]
      exact ih _ (fun hm => h (List.mem_cons_of_mem c hm))

theorem findIdx?_semi_append : ∀ {pre : List Char} (post : List Char) (i : Nat), ';' ∉ pre →
    (pre ++ ';' :: post).findIdx? (· = ';') i = some (i + pre.length) := by
  intro pre
  induction pre with
  | nil => intro post i _; simp [List.findIdx?_cons]
  | cons c pre' ih =>
      intro post i h
      have hc : ¬ c = ';' := fun he => h (he ▸ List.mem_cons_self c pre')
      rw [List.cons_append, List.findIdx?_cons, if_neg (by simpa using hc),
        ih post (i + 1) (fun hm => h (List.mem_cons_of_mem c hm))]
      congr 1
      simp only [List.length_cons]
      omega

theorem findSemiFrom_zero (cs : List Char) : findSemiFrom cs 0 = cs.findIdx? (· = ';') := by
  unfold findSemiFrom
  rw [List.drop_zero]
  cases h : cs.findIdx? (· = ';') <;> simp [h]

theorem countQuotes_zero {cs : List Char} (h : '"' ∉ cs) (i : Nat) : countQuotes cs i = 0 := by
  unfold countQuotes
  rw [List.count_eq_zero]
  exact fun hm => h (List.mem_of_mem_take hm)

theorem findParamEndCore_none (cs : List Char) : ∀ f, findParamEndCore cs f none = cs.length := by
  intro f
  cases f <;> rfl

theorem findParamEnd_no_quote {cs : List Char} (h : '"' ∉ cs) :
    findParamEnd cs = (cs.findIdx? (· = ';')).getD cs.length := by
  unfold findParamEnd
  rw [findSemiFrom_zero]
  cases h2 : cs.findIdx? (· = ';') with
  | none => rw [findParamEndCore_none]; rfl
  | some i =>
      cases cs with
      | nil => rw [show ([] : List Char).findIdx? (· = ';') = none from rfl] at h2; cases h2
      | cons a rest =>
          simp only [List.length_cons, findParamEndCore]
          rw [countQuotes_zero h]
          simp

theorem phpCore_nil : ∀ n, parseHeaderParamsCore n [] = [] := by
  intro n
  cases n <;> rfl

theorem phpCore_fuel : ∀ (f1 f2 : Nat) (cs : List Char), cs.length ≤ f1 → cs.length ≤ f2 →
    parseHeaderParamsCore f1 cs = parseHeaderParamsCore f2 cs := by
  intro f1
  induction f1 with
  | zero =>
      intro f2 cs h1 _
      rw [List.length_eq_zero.mp (Nat.le_zero.mp h1), phpCore_nil, phpCore_nil]
  | succ f ih =>
      intro f2 cs h1 h2
      cases cs with
      | nil => rw [phpCore_nil, phpCore_nil]
      | cons c rest =>
          cases f2 with
          | zero =>
              rw [List.length_cons] at h2
              exact absurd h2 (by omega)
          | succ g =>
              simp only [parseHeaderParamsCore]
              by_cases hc : c = ';'
              · rw [if_pos hc, if_pos hc]
                congr 1
                apply ih
                · rw [List.length_cons] at h1
                  simp only [List.length_drop]
                  omega
                · rw [List.length_cons] at h2
                  simp only [List.length_drop]
                  omega
              · rw [if_neg hc, if_neg hc]

theorem exists_first_semi : ∀ {cs : List Char}, ';' ∈ cs →
    ∃ pre post, cs = pre ++ ';' :: post ∧ ';' ∉ pre := by
  intro cs
  induction cs with
  | nil => intro h; cases h
  | cons c rest ih =>
      intro h
      by_cases hc : c = ';'
      · exact ⟨[], rest, by rw [hc]; rfl, List.not_mem_nil ';'⟩
      · have hr : ';' ∈ rest := by
          rcases List.mem_cons.mp h with h1 | h1
          · exact absurd h1.symm hc
          · exact h1
        obtain ⟨pre, post, heq, hpre⟩ := ih hr
        refine ⟨c :: pre, post, by rw [List.cons_append, ← heq], ?_⟩
        intro hm
        rcases List.mem_cons.mp hm with h1 | h1
        · exact hc h1.symm
        · exact hpre h1

theorem php_no_quote_aux : ∀ (n : Nat) (cs : List Char), cs.length ≤ n → '"' ∉ cs →
    parseHeaderParams (';' :: cs) = (splitSemi cs).map pyStripList := by
  intro n
  induction n with
  | zero =>
      intro cs hlen _
      rw [List.length_eq_zero.mp (Nat.le_zero.mp hlen)]
      rfl
  | succ n ih =>
      intro cs hlen hq
      by_cases hmem : ';' ∈ cs
      · obtain ⟨pre, post, rfl, hpre⟩ := exists_first_semi hmem
        have hq_pre : '"' ∉ pre := fun hm => hq (List.mem_append.mpr (.inl hm))
        have hq_post : '"' ∉ post :=
          fun hm => hq (List.mem_append.mpr (.inr (List.mem_cons_of_mem _ hm)))
        have hfi : (pre ++ ';' :: post).findIdx? (· = ';') = some pre.length := by
          simpa using findIdx?_semi_append post 0 hpre
        have he2 : findParamEnd (pre ++ ';' :: post) = pre.length := by
          rw [findParamEnd_no_quote hq, hfi]
          rfl
        have hstep : parseHeaderParams (';' :: (pre ++ ';' :: post)) =
            pyStripList pre ::
              parseHeaderParamsCore (pre ++ ';' :: post).length (';' :: post) := by
          show parseHeaderParamsCore ((';' :: (pre ++ ';' :: post)).length)
            (';' :: (pre ++ ';' :: post)) = _
          simp only [List.length_cons, parseHeaderParamsCore]
          rw [if_pos trivial, he2, List.take_left, List.drop_left]
        rw [hstep]
        have hfuel : parseHeaderParamsCore (pre ++ ';' :: post).length (';' :: post) =
            parseHeaderParams (';' :: post) := by
          apply phpCore_fuel
          · simp only [List.length_append, List.length_cons]
            omega
          · exact Nat.le_refl _
        rw [hfuel]
        have hlen2 : post.length ≤ n := by
          rw [List.length_append, List.length_cons] at hlen
          omega
        rw [ih post hlen2 hq_post, splitSemi_append_semi post hpre]
        rfl
      · have hfi : cs.findIdx? (· = ';') = none := findIdx?_semi_none 0 hmem
        have he2 : findParamEnd cs = cs.length := by
          rw [findParamEnd_no_quote hq, hfi]
          rfl
        show parseHeaderParamsCore ((';' :: cs).length) (';' :: cs) = _
        simp only [List.length_cons, parseHeaderParamsCore]
        rw [if_pos trivial, he2, List.take_length, List.drop_length, phpCore_nil,
          splitSemi_no_semi hmem]
        rfl

theorem parseHeaderParams_no_quote {cs : List Char} (hq : '"' ∉ cs) :
    parseHeaderParams (';' :: cs) = (splitSemi cs).map pyStripList :=
  php_no_quote_aux cs.length cs (Nat.le_refl _) hq

theorem string_mk_data (s : String) : String.mk s.data = s := rfl

theorem drop_length_cons {α : Type} : ∀ (pre : List α) (x : α) (post : List α),
    (pre ++ x :: post).drop (pre.length + 1) = post := by
  intro pre
  induction pre with
  | nil => intro x post; rfl
  | cons c pre' ih =>
      intro x post
      rw [List.cons_append, List.length_cons]
      rw [show pre'.length + 1 + 1 = (pre'.length + 1) + 1 from rfl, List.drop_succ_cons]
      exact ih x post

theorem lowerList_fixed : ∀ {l : List Char}, (∀ c ∈ l, asciiLower c = c) → lowerList l = l := by
  intro l
  induction l with
  | nil => intro _; rfl
  | cons c rest ih =>
      intro h
      unfold lowerList
      rw [List.map_cons, h c (List.mem_cons_self c rest)]
      have := ih (fun d hd => h d (List.mem_cons_of_mem c hd))
      unfold lowerList at this
      rw [this]

theorem mem_lowerList {c : Char} {l : List Char} (h : c ∈ lowerList l) :
    ∃ d ∈ l, c = asciiLower d := by
  obtain ⟨d, hd, he⟩ := List.mem_map.mp h
  exact ⟨d, hd, he.symm⟩

theorem lowerList_lowerFixed (l : List Char) : lowerFixed (lowerList l) := by
  intro c hc
  obtain ⟨d, _, rfl⟩ := mem_lowerList hc
  exact asciiLower_idem d

theorem lowerList_no_symbol {x : Char} (hx : x.toNat < 65) {l : List Char} (h : x ∉ l) :
    x ∉ lowerList l := by
  intro hm
  obtain ⟨d, hd, he⟩ := mem_lowerList hm
  exact h (((asciiLower_eq_symbol hx).mp he.symm) ▸ hd)

theorem goodEnds_lowerList {l : List Char} (h : goodEnds l) : goodEnds (lowerList l) := by
  constructor
  · intro c hc
    unfold lowerList at hc
    rw [List.head?_map] at hc
    cases hh : l.head? with
    | none => rw [hh] at hc; cases hc
    | some d =>
        rw [hh] at hc
        have : asciiLower d = c := by injection hc
        rw [← this, pyIsSpace_asciiLower]
        exact h.1 d hh
  · intro c hc
    unfold lowerList at hc
    rw [List.getLast?_map] at hc
    cases hh : l.getLast? with
    | none => rw [hh] at hc; cases hc
    | some d =>
        rw [hh] at hc
        have : asciiLower d = c := by injection hc
        rw [← this, pyIsSpace_asciiLower]
        exact h.2 d hh

theorem findIdx?_ge {p : Char → Bool} : ∀ {l : List Char} {k j : Nat},
    l.findIdx? p k = some j → k ≤ j := by
  intro l
  induction l with
  | nil => intro k j h; cases h
  | cons c rest ih =>
      intro k j h
      rw [List.findIdx?_cons] at h
      by_cases hc : p c = true
      · rw [if_pos hc] at h
        injection h with h
        omega
      · rw [if_neg hc] at h
        have := ih h
        omega

theorem findIdx?_none_of {p : Char → Bool} : ∀ {l : List Char} (k : Nat),
    (∀ c ∈ l, p c = false) → l.findIdx? p k = none := by
  intro l
  induction l with
  | nil => intro k _; rfl
  | cons c rest ih =>
      intro k h
      rw [List.findIdx?_cons,
        if_neg (by rw [h c (List.mem_cons_self c rest)]; exact Bool.false_ne_true)]
      exact ih _ (fun d hd => h d (List.mem_cons_of_mem c hd))

theorem findIdx?_append_first {p : Char → Bool} : ∀ {pre : List Char} (x : Char)
    (post : List Char) (k : Nat), (∀ c ∈ pre, p c = false) → p x = true →
    (pre ++ x :: post).findIdx? p k = some (k + pre.length) := by
  intro pre
  induction pre with
  | nil =>
      intro x post k _ hx
      simp [List.findIdx?_cons, hx]
  | cons c pre' ih =>
      intro x post k h hx
      rw [List.cons_append, List.findIdx?_cons,
        if_neg (by rw [h c (List.mem_cons_self c pre')]; exact Bool.false_ne_true),
        ih x post (k + 1) (fun d hd => h d (List.mem_cons_of_mem c hd)) hx]
      congr 1
      rw [List.length_cons]
      omega

theorem findIdx?_take_false_aux {p : Char → Bool} : ∀ {l : List Char} {k i : Nat},
    l.findIdx? p k = some (k + i) → ∀ c ∈ l.take i, p c = false := by
  intro l
  induction l with
  | nil => intro k i h; cases h
  | cons c rest ih =>
      intro k i h d hd
      rw [List.findIdx?_cons] at h
      by_cases hc : p c = true
      · rw [if_pos hc] at h
        injection h with h
        have : i = 0 := by omega
        rw [this] at hd
        cases hd
      · rw [if_neg hc] at h
        have hge := findIdx?_ge h
        have hi : 1 ≤ i := by omega
        obtain ⟨i', rfl⟩ : ∃ i', i = i' + 1 := ⟨i - 1, by omega⟩
        rw [List.take_succ_cons] at hd
        rcases List.mem_cons.mp hd with h1 | h1
        · rw [h1]
          exact Bool.eq_false_iff.mpr hc
        · exact ih (by rw [show k + 1 + i' = k + (i' + 1) from by omega]; exact h) d h1

theorem findIdx?_take_false {p : Char → Bool} {l : List Char} {i : Nat}
    (h : l.findIdx? p 0 = some i) : ∀ c ∈ l.take i, p c = false :=
  findIdx?_take_false_aux (by rw [Nat.zero_add]; exact h)

theorem exists_first_char {x : Char} : ∀ {cs : List Char}, x ∈ cs →
    ∃ pre post, cs = pre ++ x :: post ∧ x ∉ pre := by
  intro cs
  induction cs with
  | nil => intro h; cases h
  | cons c rest ih =>
      intro h
      by_cases hc : c = x
      · exact ⟨[], rest, by rw [hc]; rfl, List.not_mem_nil x⟩
      · have hr : x ∈ rest := by
          rcases List.mem_cons.mp h with h1 | h1
          · exact absurd h1.symm hc
          · exact h1
        obtain ⟨pre, post, heq, hpre⟩ := ih hr
        refine ⟨c :: pre, post, by rw [List.cons_append, ← heq], ?_⟩
        intro hm
        rcases List.mem_cons.mp hm with h1 | h1
        · exact hc h1.symm
        · exact hpre h1

theorem partitionSlash_append {pre post : List Char} (h : '/' ∉ pre) :
    partitionSlash (String.mk (pre ++ '/' :: post)) = (String.mk pre, String.mk post) := by
  have hf : (pre ++ '/' :: post).findIdx? (· = '/') = some (0 + pre.length) :=
    findIdx?_append_first '/' post 0
      (fun c hc => by
        apply decide_eq_false
        intro he
        exact h (he ▸ hc)) (by simp)
  unfold partitionSlash
  simp only [string_mk_data, hf, Nat.zero_add]
  rw [List.take_left, drop_length_cons]

theorem partitionSlash_no_slash {s : String} (h : '/' ∉ s.data) :
    partitionSlash s = (s, "") := by
  unfold partitionSlash
  rw [findIdx?_none_of 0 (fun c hc => by
    apply decide_eq_false
    intro he
    exact h (he ▸ hc))]

theorem assocSet_fresh {l : List (String × String)} {k v : String}
    (h : ∀ e ∈ l, e.1 ≠ k) : assocSet l k v = l ++ [(k, v)] := by
  unfold assocSet
  rw [if_neg]
  intro hany
  obtain ⟨e, he, hek⟩ := List.any_eq_true.mp hany
  exact h e he (of_decide_eq_true hek)

theorem mem_assocSet {l : List (String × String)} {k v : String} {e : String × String}
    (h : e ∈ assocSet l k v) : e ∈ l ∨ e = (k, v) := by
  unfold assocSet at h
  split at h
  · obtain ⟨a, ha, hae⟩ := List.mem_map.mp h
    by_cases hk : a.1 = k
    · rw [if_pos hk] at hae
      exact .inr hae.symm
    · rw [if_neg hk] at hae
      exact .inl (hae ▸ ha)
  · rcases List.mem_append.mp h with h1 | h1
    · exact .inl h1
    · exact .inr (List.mem_singleton.mp h1)

theorem keysDistinct_assocSet {l : List (String × String)} {k v : String}
    (h : keysDistinct l) : keysDistinct (assocSet l k v) := by
  unfold assocSet
  split
  · unfold keysDistinct at h ⊢
    refine List.Pairwise.map _ ?_ h
    intro a b hab
    by_cases ha : a.1 = k <;> by_cases hb2 : b.1 = k
    · exact absurd (ha.trans hb2.symm) hab
    · rw [if_pos ha, if_neg hb2]
      exact fun he => hb2 he.symm
    · rw [if_neg ha, if_pos hb2]
      exact ha
    · rw [if_neg ha, if_neg hb2]
      exact hab
  · rename_i hany
    unfold keysDistinct at h ⊢
    rw [List.pairwise_append]
    refine ⟨h, List.pairwise_singleton _ _, ?_⟩
    intro a ha b hb
    rw [List.mem_singleton.mp hb]
    intro hak
    exact hany (List.any_eq_true.mpr ⟨a, ha, decide_eq_true hak⟩)

theorem assocSet_inv {l : List (String × String)} {k v : String}
    (hl : (∀ e ∈ l, entryGood e) ∧ keysDistinct l) (hkv : entryGood (k, v)) :
    (∀ e ∈ assocSet l k v, entryGood e) ∧ keysDistinct (assocSet l k v) :=
  ⟨fun e he => (mem_assocSet he).elim (hl.1 e) (fun h => h ▸ hkv), keysDistinct_assocSet hl.2⟩

theorem parseHeaderKV_good {acc : List (String × String)} {seg : List Char}
    (hsemi : ';' ∉ seg) (hquote : '"' ∉ seg)
    (hacc : (∀ e ∈ acc, entryGood e) ∧ keysDistinct acc) :
    (∀ e ∈ parseHeaderKV acc seg, entryGood e) ∧ keysDistinct (parseHeaderKV acc seg) := by
  unfold parseHeaderKV
  cases hf : seg.findIdx? (· = '=') with
  | none => exact hacc
  | some i =>
      simp only [hf]
      have hquote_v : '"' ∉ pyStripList (seg.drop (i + 1)) :=
        fun hm => hquote (List.mem_of_mem_drop (mem_of_mem_pyStripList hm))
      rw [if_neg (by
        rintro ⟨h1, h2, h3⟩
        exact hquote_v (head?_mem h2))]
      apply assocSet_inv hacc
      refine ⟨⟨goodEnds_lowerList (goodEnds_pyStripList _), ?_, ?_⟩, ?_, ?_, ?_, ?_, ?_⟩
      · exact lowerList_no_symbol (by decide)
          (fun hm => hsemi (List.mem_of_mem_take (mem_of_mem_pyStripList hm)))
      · exact lowerList_no_symbol (by decide)
          (fun hm => hquote (List.mem_of_mem_take (mem_of_mem_pyStripList hm)))
      · exact lowerList_lowerFixed _
      · exact lowerList_no_symbol (by decide) (fun hm => by
          have := findIdx?_take_false hf '=' (mem_of_mem_pyStripList hm)
          simp at this)
      · exact goodEnds_pyStripList _
      · exact fun hm => hsemi (List.mem_of_mem_drop (mem_of_mem_pyStripList hm))
      · exact hquote_v

theorem foldl_KV_good : ∀ (segs : List (List Char)) (acc : List (String × String)),
    (∀ seg ∈ segs, ';' ∉ seg ∧ '"' ∉ seg) →
    (∀ e ∈ acc, entryGood e) ∧ keysDistinct acc →
    (∀ e ∈ segs.foldl parseHeaderKV acc, entryGood e) ∧
      keysDistinct (segs.foldl parseHeaderKV acc) := by
  intro segs
  induction segs with
  | nil => intro acc _ hacc; exact hacc
  | cons seg rest ih =>
      intro acc hsegs hacc
      rw [List.foldl_cons]
      exact ih _ (fun s hs => hsegs s (List.mem_cons_of_mem seg hs))
        (parseHeaderKV_good (hsegs seg (List.mem_cons_self seg rest)).1
          (hsegs seg (List.mem_cons_self seg rest)).2 hacc)

theorem parseHeader_facts {cs : List Char} (hq : '"' ∉ cs) :
    cleanToken (parseHeader cs).1.data ∧ lowerFixed (parseHeader cs).1.data ∧
    (∀ e ∈ (parseHeader cs).2, entryGood e) ∧ keysDistinct (parseHeader cs).2 := by
  unfold parseHeader
  rw [parseHeaderParams_no_quote hq]
  cases hsp : splitSemi cs with
  | nil => exact absurd hsp (splitSemi_ne_nil cs)
  | cons piece rest =>
      simp only [List.map_cons]
      obtain ⟨hsemi0, hsub0⟩ := splitSemi_pieces cs piece (hsp ▸ List.mem_cons_self piece rest)
      have hfold := foldl_KV_good (rest.map pyStripList) []
        (by
          intro seg hs
          obtain ⟨p', hp', rfl⟩ := List.mem_map.mp hs
          obtain ⟨hsm, hsb⟩ := splitSemi_pieces cs p' (hsp ▸ List.mem_cons_of_mem piece hp')
          exact ⟨fun hm => hsm (mem_of_mem_pyStripList hm),
            fun hm => hq (hsb '"' (mem_of_mem_pyStripList hm))⟩)
        ⟨fun e he => absurd he (List.not_mem_nil e), List.Pairwise.nil⟩
      refine ⟨⟨goodEnds_lowerList (goodEnds_pyStripList _), ?_, ?_⟩,
        lowerList_lowerFixed _, hfold.1, hfold.2⟩
      · exact lowerList_no_symbol (by decide)
          (fun hm => hsemi0 (mem_of_mem_pyStripList hm))
      · exact lowerList_no_symbol (by decide)
          (fun hm => hq (hsub0 '"' (mem_of_mem_pyStripList hm)))

theorem lookup_none_of {k : String} : ∀ {l : List (String × String)},
    (∀ e ∈ l, e.1 ≠ k) → List.lookup k l = none := by
  intro l
  induction l with
  | nil => intro _; rfl
  | cons e rest ih =>
      intro h
      have hk : (k == e.1) = false :=
        beq_eq_false_iff_ne.mpr (Ne.symm (h e (List.mem_cons_self e rest)))
      simp [List.lookup, hk, ih (fun d hd => h d (List.mem_cons_of_mem e hd))]

theorem goodEnds_nil : goodEnds [] := by
  constructor <;> intro c h <;> cases h

theorem goodEnds_append_cons {a : List Char} {x : Char} {b : List Char}
    (hx : pyIsSpace x = false) (ha : goodEnds a) (hb : goodEnds b) :
    goodEnds (a ++ x :: b) := by
  constructor
  · intro c hc
    cases a with
    | nil =>
        rw [List.nil_append] at hc
        have : x = c := by injection hc
        rw [← this]
        exact hx
    | cons d ds =>
        rw [List.cons_append] at hc
        have : d = c := by injection hc
        rw [← this]
        exact ha.1 d rfl
  · intro c hc
    rw [List.getLast?_append_of_ne_nil _ (by simp)] at hc
    cases hbb : b with
    | nil =>
        rw [hbb] at hc
        have : x = c := by injection hc
        rw [← this]
        exact hx
    | cons e es =>
        rw [show (x :: b).getLast? = b.getLast? from by
          rw [show x :: b = [x] ++ b from rfl,
            List.getLast?_append_of_ne_nil _ (by rw [hbb]; simp)]] at hc
        exact hb.2 c hc

theorem mem_joinSemiSp : ∀ {ls : List (List Char)} {c : Char}, c ∈ joinSemiSp ls →
    (∃ l ∈ ls, c ∈ l) ∨ c = ';' ∨ c = ' ' := by
  intro ls
  induction ls with
  | nil => intro c h; cases h
  | cons x xs ih =>
      intro c h
      cases xs with
      | nil => exact .inl ⟨x, List.mem_cons_self x [], h⟩
      | cons y ys =>
          rw [show joinSemiSp (x :: y :: ys) = x ++ ';' :: ' ' :: joinSemiSp (y :: ys)
            from rfl] at h
          rcases List.mem_append.mp h with h1 | h1
          · exact .inl ⟨x, List.mem_cons_self x (y :: ys), h1⟩
          · rcases List.mem_cons.mp h1 with h2 | h2
            · exact .inr (.inl h2)
            · rcases List.mem_cons.mp h2 with h3 | h3
              · exact .inr (.inr h3)
              · rcases ih h3 with ⟨l, hl, hcl⟩ | h4
                · exact .inl ⟨l, List.mem_cons_of_mem x hl, hcl⟩
                · exact .inr h4

theorem pyStripList_cons_space {l : List Char} (h : goodEnds l) :
    pyStripList (' ' :: l) = l := by
  unfold pyStripList
  rw [List.dropWhile_cons, if_pos (by decide), dropWhile_eq_self_head h.1,
    dropWhile_eq_self_head (fun c hc => h.2 c (by rwa [List.head?_reverse] at hc)),
    List.reverse_reverse]

theorem map_strip_sp : ∀ (ls : List (List Char)), (∀ l ∈ ls, goodEnds l) →
    (ls.map (fun l => ' ' :: l)).map pyStripList = ls := by
  intro ls
  induction ls with
  | nil => intro _; rfl
  | cons x xs ih =>
      intro h
      rw [List.map_cons, List.map_cons, pyStripList_cons_space (h x (List.mem_cons_self x xs)),
        ih (fun l hl => h l (List.mem_cons_of_mem x hl))]

theorem fmtRat_chars (q : Rat) : ∀ c ∈ (fmtRat q).data, c = '-' ∨ c = '.' ∨ c.isDigit = true := by
  intro c hc
  unfold fmtRat at hc
  rw [string_mk_data] at hc
  rcases List.mem_append.mp hc with h1 | h1
  · rcases List.mem_append.mp h1 with h2 | h2
    · by_cases hneg : q.num < 0
      · rw [if_pos hneg] at h2
        exact .inl (List.mem_singleton.mp h2)
      · rw [if_neg hneg] at h2
        cases h2
    · exact .inr (.inr (natDigits_digits _ c h2))
  · rcases List.mem_cons.mp h1 with h2 | h2
    · exact .inr (.inl h2)
    · by_cases hfr : fracDigitsCore q.den q.den (q.num.natAbs % q.den) = []
      · rw [if_pos hfr] at h2
        rw [List.mem_singleton.mp h2]
        exact .inr (.inr (by decide))
      · rw [if_neg hfr] at h2
        exact .inr (.inr (fracDigitsCore_digits _ _ _ c h2))

theorem fmtRat_clean (q : Rat) : (∀ c ∈ (fmtRat q).data, pyIsSpace c = false) ∧
    '"' ∉ (fmtRat q).data ∧ ';' ∉ (fmtRat q).data := by
  refine ⟨?_, ?_, ?_⟩
  · intro c hc
    exact pyIsSpace_false_of (fmtRat_chars q c hc)
  · intro hm
    rcases fmtRat_chars q '"' hm with h | h | h
    · cases h
    · cases h
    · have := char_isDigit_iff.mp h
      have : ('"' : Char).toNat = 34 := by decide
      omega
  · intro hm
    rcases fmtRat_chars q ';' hm with h | h | h
    · cases h
    · cases h
    · have h2 := char_isDigit_iff.mp h
      have h3 : (';' : Char).toNat = 59 := by decide
      omega

theorem parseHeaderKV_item {acc : List (String × String)} {k v : String}
    (hk_good : goodEnds k.data) (hk_lower : lowerFixed k.data) (hk_eq : '=' ∉ k.data)
    (hv_good : goodEnds v.data) (hv_quote : '"' ∉ v.data) :
    parseHeaderKV acc (k.data ++ '=' :: v.data) = assocSet acc k v := by
  have hf : (k.data ++ '=' :: v.data).findIdx? (· = '=') = some (0 + k.data.length) :=
    findIdx?_append_first '=' v.data 0
      (fun c hc => by
        apply decide_eq_false
        intro he
        exact hk_eq (he ▸ hc)) (by simp)
  unfold parseHeaderKV
  simp only [hf, Nat.zero_add]
  rw [List.take_left, drop_length_cons, pyStripList_eq_self hk_good,
    lowerList_fixed hk_lower, pyStripList_eq_self hv_good,
    if_neg (by
      rintro ⟨h1, h2, h3⟩
      exact hv_quote (head?_mem h2)), string_mk_data, string_mk_data]

theorem foldl_KV_items : ∀ (entries : List (String × String)) (acc : List (String × String)),
    (∀ e ∈ entries, goodEnds e.1.data ∧ lowerFixed e.1.data ∧ '=' ∉ e.1.data ∧
      goodEnds e.2.data ∧ '"' ∉ e.2.data) →
    (∀ e ∈ entries, ∀ a ∈ acc, a.1 ≠ e.1) → keysDistinct entries →
    (entries.map (fun e => e.1.data ++ '=' :: e.2.data)).foldl parseHeaderKV acc =
      acc ++ entries := by
  intro entries
  induction entries with
  | nil => intro acc _ _ _; rw [List.map_nil, List.foldl_nil, List.append_nil]
  | cons e rest ih =>
      intro acc hgood hfresh hdist
      rw [List.map_cons, List.foldl_cons]
      obtain ⟨h1, h2, h3, h4, h5⟩ := hgood e (List.mem_cons_self e rest)
      rw [parseHeaderKV_item h1 h2 h3 h4 h5,
        assocSet_fresh (fun a ha => hfresh e (List.mem_cons_self e rest) a ha)]
      have hdist' := (List.pairwise_cons.mp hdist)
      rw [ih (acc ++ [(e.1, e.2)])
        (fun d hd => hgood d (List.mem_cons_of_mem e hd))
        (fun d hd a ha => by
          rcases List.mem_append.mp ha with ha1 | ha1
          · exact hfresh d (List.mem_cons_of_mem e hd) a ha1
          · rw [List.mem_singleton.mp ha1]
            exact hdist'.1 d hd)
        hdist'.2]
      rw [List.append_assoc]
      rfl

theorem string_eta (s : String) : String.mk s.data = s := rfl

theorem qkey_facts : goodEnds ("q" : String).data ∧ lowerFixed ("q" : String).data ∧
    '=' ∉ ("q" : String).data ∧ ';' ∉ ("q" : String).data ∧ '"' ∉ ("q" : String).data := by
  refine ⟨⟨?_, ?_⟩, ?_, by decide, by decide, by decide⟩
  · intro c h
    have h2 : 'q' = c := by injection h
    rw [← h2]
    decide
  · intro c h
    have h2 : 'q' = c := by injection h
    rw [← h2]
    decide
  · intro c hc
    rw [List.mem_singleton.mp hc]
    decide

theorem fmtRat_goodEnds (q : Rat) : goodEnds (fmtRat q).data :=
  ⟨fun c h => (fmtRat_clean q).1 c (head?_mem h),
   fun c h => (fmtRat_clean q).1 c (getLast?_mem h)⟩

theorem unicodeStr_reparse (m : MediaType)
    (hms_good : goodEnds (m.main_type.data ++ '/' :: m.sub_type.data))
    (hms_semi : ';' ∉ m.main_type.data ++ '/' :: m.sub_type.data)
    (hms_quote : '"' ∉ m.main_type.data ++ '/' :: m.sub_type.data)
    (hms_lower : lowerFixed (m.main_type.data ++ '/' :: m.sub_type.data))
    (hslash : '/' ∉ m.main_type.data)
    (hent : ∀ e ∈ m.params, entryGood e)
    (hkeys : keysDistinct m.params)
    (hnoq : ∀ e ∈ m.params, e.1 ≠ "q") :
    ∃ m', mediaTypeParse (some m.unicodeStr) = some m' ∧
      m'.main_type = m.main_type ∧ m'.sub_type = m.sub_type ∧ m'.params = m.params := by
  have hegood : ∀ e ∈ m.params, goodEnds e.1.data ∧ lowerFixed e.1.data ∧ '=' ∉ e.1.data ∧
      goodEnds e.2.data ∧ '"' ∉ e.2.data := by
    intro e he
    obtain ⟨⟨g1, _, _⟩, g2, g3, g4, _, g5⟩ := hent e he
    exact ⟨g1, g2, g3, g4, g5⟩
  have hesemi : ∀ e ∈ m.params, ';' ∉ e.1.data ∧ ';' ∉ e.2.data := by
    intro e he
    obtain ⟨⟨_, g1, _⟩, _, _, _, g2, _⟩ := hent e he
    exact ⟨g1, g2⟩
  have hequote : ∀ e ∈ m.params, '"' ∉ e.1.data ∧ '"' ∉ e.2.data := by
    intro e he
    obtain ⟨⟨_, _, g1⟩, _, _, _, _, g2⟩ := hent e he
    exact ⟨g1, g2⟩
  have hpart : partitionSlash (String.mk (m.main_type.data ++ '/' :: m.sub_type.data)) =
      (m.main_type, m.sub_type) := by
    rw [partitionSlash_append hslash, string_eta, string_eta]
  have hfilter : m.params.filter (fun p => p.1 ≠ "q") = m.params :=
    List.filter_eq_self.mpr (fun e he => decide_eq_true (hnoq e he))
  obtain ⟨hqk_good, hqk_lower, hqk_eq, hqk_semi, hqk_quote⟩ := qkey_facts
  -- properties of a generic entry list headed (or not) by the q entry
  have hgen : ∀ (tes : List (String × String)),
      (∀ e ∈ tes, goodEnds e.1.data ∧ lowerFixed e.1.data ∧ '=' ∉ e.1.data ∧
        goodEnds e.2.data ∧ '"' ∉ e.2.data) →
      (∀ e ∈ tes, ';' ∉ e.1.data ∧ ';' ∉ e.2.data) →
      (∀ e ∈ tes, '"' ∉ e.1.data ∧ '"' ∉ e.2.data) →
      keysDistinct tes →
      (m.unicodeStr).data =
        joinSemiSp ((m.main_type.data ++ '/' :: m.sub_type.data) ::
          tes.map (fun e => e.1.data ++ '=' :: e.2.data)) →
      parseHeader (m.unicodeStr).data =
        (String.mk (m.main_type.data ++ '/' :: m.sub_type.data), tes) := by
    intro tes hg hs hq2 hd hR
    have hitems_semi : ∀ item ∈ tes.map (fun e => e.1.data ++ '=' :: e.2.data), ';' ∉ item := by
      intro item hitem
      obtain ⟨e, he, rfl⟩ := List.mem_map.mp hitem
      intro hm2
      rcases List.mem_append.mp hm2 with h1 | h1
      · exact (hs e he).1 h1
      · rcases List.mem_cons.mp h1 with h2 | h2
        · cases h2
        · exact (hs e he).2 h2
    have hitems_good : ∀ item ∈ tes.map (fun e => e.1.data ++ '=' :: e.2.data),
        goodEnds item := by
      intro item hitem
      obtain ⟨e, he, rfl⟩ := List.mem_map.mp hitem
      exact goodEnds_append_cons (by decide) ((hg e he).1) ((hg e he).2.2.2.1)
    have hquoteR : '"' ∉ (m.unicodeStr).data := by
      rw [hR]
      intro hm2
      rcases mem_joinSemiSp hm2 with ⟨l, hl, hcl⟩ | h1 | h1
      · rcases List.mem_cons.mp hl with h2 | h2
        · exact hms_quote (h2 ▸ hcl)
        · obtain ⟨e, he, rfl⟩ := List.mem_map.mp h2
          rcases List.mem_append.mp hcl with h3 | h3
          · exact (hq2 e he).1 h3
          · rcases List.mem_cons.mp h3 with h4 | h4
            · cases h4
            · exact (hq2 e he).2 h4
      · cases h1
      · cases h1
    have hsegs : parseHeaderParams (';' :: (m.unicodeStr).data) =
        (m.main_type.data ++ '/' :: m.sub_type.data) ::
          tes.map (fun e => e.1.data ++ '=' :: e.2.data) := by
      rw [hR] at hquoteR ⊢
      rw [parseHeaderParams_no_quote hquoteR,
        splitSemi_join _ _ hms_semi hitems_semi, List.map_cons,
        pyStripList_eq_self hms_good, map_strip_sp _ hitems_good]
    unfold parseHeader
    simp only [hsegs]
    rw [lowerList_fixed hms_lower,
      foldl_KV_items tes [] hg (fun e _ a ha => absurd ha (List.not_mem_nil a)) hd,
      List.nil_append]
  cases hqng : m.quality_not_given with
  | true =>
      have hR : (m.unicodeStr).data =
          joinSemiSp ((m.main_type.data ++ '/' :: m.sub_type.data) ::
            m.params.map (fun e => e.1.data ++ '=' :: e.2.data)) := by
        unfold MediaType.unicodeStr
        rw [string_mk_data, hqng]
        rfl
      have hph := hgen m.params hegood hesemi hequote hkeys hR
      have hlook : List.lookup "q" m.params = none := lookup_none_of hnoq
      refine ⟨⟨m.unicodeStr, String.mk (m.main_type.data ++ '/' :: m.sub_type.data),
        m.params, 1, true, m.main_type, m.sub_type⟩, ?_, rfl, rfl, rfl⟩
      simp only [mediaTypeParse, Option.getD_some, hph, hlook, hpart, hfilter]
  | false =>
      have hR : (m.unicodeStr).data =
          joinSemiSp ((m.main_type.data ++ '/' :: m.sub_type.data) ::
            (("q", fmtRat m.quality) :: m.params).map
              (fun e => e.1.data ++ '=' :: e.2.data)) := by
        unfold MediaType.unicodeStr
        rw [string_mk_data, hqng]
        rfl
      have hph := hgen (("q", fmtRat m.quality) :: m.params)
        (by
          intro e he
          rcases List.mem_cons.mp he with h1 | h1
          · rw [h1]
            exact ⟨hqk_good, hqk_lower, hqk_eq, fmtRat_goodEnds m.quality,
              (fmtRat_clean m.quality).2.1⟩
          · exact hegood e h1)
        (by
          intro e he
          rcases List.mem_cons.mp he with h1 | h1
          · rw [h1]
            exact ⟨hqk_semi, (fmtRat_clean m.quality).2.2⟩
          · exact hesemi e h1)
        (by
          intro e he
          rcases List.mem_cons.mp he with h1 | h1
          · rw [h1]
            exact ⟨hqk_quote, (fmtRat_clean m.quality).2.1⟩
          · exact hequote e h1)
        (by
          unfold keysDistinct
          rw [List.pairwise_cons]
          exact ⟨fun e he => Ne.symm (hnoq e he), hkeys⟩)
        hR
      have hlook : List.lookup "q" (("q", fmtRat m.quality) :: m.params) =
          some (fmtRat m.quality) := by
        simp [List.lookup]
      obtain ⟨r, hr⟩ := pyFloat?_fmtRat m.quality
      have hfilter2 : (("q", fmtRat m.quality) :: m.params).filter (fun p => p.1 ≠ "q") =
          m.params := by
        rw [List.filter_cons, if_neg (by simp)]
        exact hfilter
      refine ⟨⟨m.unicodeStr, String.mk (m.main_type.data ++ '/' :: m.sub_type.data),
        m.params, r, false, m.main_type, m.sub_type⟩, ?_, rfl, rfl, rfl⟩
      simp only [mediaTypeParse, Option.getD_some, hph, hlook, hr, Option.map_some', hpart,
        hfilter2]

/-- C9. The round-trip claim fails as stated: a quoted parameter value
containing a semicolon survives the first parse but the reconstructed
string re-parses with the value truncated at the semicolon, so parameters
are not preserved for every media-type string. -/
theorem claim_C9_counterexample :
    (mediaTypeParse (some "text/html; a=\"b;c\"")).map
        (fun m => (m.main_type, m.sub_type, m.params, m.unicodeStr)) =
      some ("text", "html", [("a", "b;c")], "text/html; a=b;c") ∧
    (mediaTypeParse (some "text/html; a=b;c")).map (fun m => m.params) = some [("a", "b")] ∧
    ([("a", "b;c")] : List (String × String)) ≠ [("a", "b")] := by
  refine ⟨by decide, by decide, by decide⟩

/-- C9 (amended). For every media-type string that contains no double-quote
character and parses successfully, parsing the reconstructed string
succeeds and preserves main type, sub type and parameters; quoted values
(the double-quote case) are the one family the reconstruction can lose, as
the counterexample shows. -/
theorem claim_C9_amended :
    ∀ (s : String) (m : MediaType), '"' ∉ s.data → mediaTypeParse (some s) = some m →
      ∃ m', mediaTypeParse (some m.unicodeStr) = some m' ∧
        m'.main_type = m.main_type ∧ m'.sub_type = m.sub_type ∧ m'.params = m.params := by
  intro s m hq hm
  obtain ⟨⟨hft_good, hft_semi, hft_quote⟩, hft_lower, hent0, hkeys0⟩ := parseHeader_facts hq
  have hfields : m.params = (parseHeader s.data).2.filter (fun p => p.1 ≠ "q") ∧
      m.main_type = (partitionSlash (parseHeader s.data).1).1 ∧
      m.sub_type = (partitionSlash (parseHeader s.data).1).2 := by
    simp only [mediaTypeParse] at hm
    split at hm
    · cases hm
      exact ⟨rfl, rfl, rfl⟩
    · obtain ⟨q, _, hmm⟩ := Option.map_eq_some'.mp hm
      subst hmm
      exact ⟨rfl, rfl, rfl⟩
  obtain ⟨hparams_eq, hmain_eq, hsub_eq⟩ := hfields
  have hent : ∀ e ∈ m.params, entryGood e := by
    intro e he
    rw [hparams_eq] at he
    exact hent0 e (List.mem_filter.mp he).1
  have hkeys : keysDistinct m.params := by
    rw [hparams_eq]
    exact List.Pairwise.sublist (List.filter_sublist _) hkeys0
  have hnoq : ∀ e ∈ m.params, e.1 ≠ "q" := by
    intro e he
    rw [hparams_eq] at he
    exact of_decide_eq_true (List.mem_filter.mp he).2
  by_cases hsl : '/' ∈ (parseHeader s.data).1.data
  · obtain ⟨pre, post, hdecomp, hpre⟩ := exists_first_char hsl
    have hps : partitionSlash (parseHeader s.data).1 = (String.mk pre, String.mk post) := by
      rw [show (parseHeader s.data).1 = String.mk (pre ++ '/' :: post) from by
        rw [← hdecomp, string_eta]]
      exact partitionSlash_append hpre
    have hmain : m.main_type = String.mk pre := by rw [hmain_eq, hps]
    have hsub : m.sub_type = String.mk post := by rw [hsub_eq, hps]
    have hms : m.main_type.data ++ '/' :: m.sub_type.data = (parseHeader s.data).1.data := by
      rw [hmain, hsub, string_mk_data, string_mk_data, hdecomp]
    apply unicodeStr_reparse m
    · rw [hms]; exact hft_good
    · rw [hms]; exact hft_semi
    · rw [hms]; exact hft_quote
    · rw [hms]; exact hft_lower
    · rw [hmain, string_mk_data]; exact hpre
    · exact hent
    · exact hkeys
    · exact hnoq
  · have hps : partitionSlash (parseHeader s.data).1 = ((parseHeader s.data).1, "") :=
      partitionSlash_no_slash hsl
    have hmain : m.main_type = (parseHeader s.data).1 := by rw [hmain_eq, hps]
    have hsub : m.sub_type = "" := by rw [hsub_eq, hps]
    have hms : m.main_type.data ++ '/' :: m.sub_type.data =
        (parseHeader s.data).1.data ++ '/' :: ([] : List Char) := by
      rw [hmain, hsub]
    apply unicodeStr_reparse m
    · rw [hms]
      exact goodEnds_append_cons (by decide) hft_good goodEnds_nil
    · rw [hms]
      intro hm2
      rcases List.mem_append.mp hm2 with h1 | h1
      · exact hft_semi h1
      · rcases List.mem_cons.mp h1 with h2 | h2
        · exact absurd h2 (by decide)
        · cases h2
    · rw [hms]
      intro hm2
      rcases List.mem_append.mp hm2 with h1 | h1
      · exact hft_quote h1
      · rcases List.mem_cons.mp h1 with h2 | h2
        · exact absurd h2 (by decide)
        · cases h2
    · rw [hms]
      intro c hc
      rcases List.mem_append.mp hc with h1 | h1
      · exact hft_lower c h1
      · rcases List.mem_cons.mp h1 with h2 | h2
        · rw [h2]; decide
        · cases h2
    · rw [hmain]; exact hsl
    · exact hent
    · exact hkeys
    · exact hnoq

/-- C9 witness at a concrete parameterized media type with a quality. -/
theorem claim_C9_witness :
    ∃ m', mediaTypeParse (some (MediaType.mk "text/html; q=0.5; indent=4" "text/html"
        [("indent", "4")] (mkRat 1 2) false "text" "html").unicodeStr) = some m' ∧
      m'.main_type = (MediaType.mk "text/html; q=0.5; indent=4" "text/html"
        [("indent", "4")] (mkRat 1 2) false "text" "html").main_type ∧
      m'.sub_type = (MediaType.mk "text/html; q=0.5; indent=4" "text/html"
        [("indent", "4")] (mkRat 1 2) false "text" "html").sub_type ∧
      m'.params = (MediaType.mk "text/html; q=0.5; indent=4" "text/html"
        [("indent", "4")] (mkRat 1 2) false "text" "html").params :=
  claim_C9_amended "text/html; q=0.5; indent=4" _ (by decide) (by decide)
